import Mathlib

/-!
# spider-man: the traversal engine of `cmd/crawl.go`

A shallow embedding of the crawler of `src/cmd/crawl.go`:

* the link filter (`containsDisallowedPrefix`, `isExternal`), `crawlDomain`,
  `convertToURLs` and `queueURLs` as pure functions; the standard library
  (`http.Get`, goquery, `(*url.URL).Parse`, `(*url.URL).String`) enters as a
  parameter (`World`);
* the goroutines of `buildQueues`, `Crawler.Run` and `Crawler.fetch` as a
  labelled step function `step` over an explicit state; the channels `queue`,
  `locations` and `pending` are unbuffered, so every step is one rendezvous
  together with the code sender and receiver run up to their next blocking
  operation (for the watcher that is `queueCount += delta` and, at zero,
  `close(queue)`; for a worker the `go queueURLs(...)` after its send). The
  counter `queueCount` and the map `visited` are private to one goroutine each.
  A send on a closed channel and a second `close` are steps into a panicked
  state, so that their absence is a theorem and not an assumption.

Go strings are modelled by `String`, Go `int` by `Int` (wrapping at 64 bits
where a subtraction can leave the range).
-/

namespace SpiderMan

/-! ## Data model -/

/-- Go's `url.URL`: the components a URL is made of. The crawler reads `Scheme`,
`Host` and `Path`; the others distinguish URLs that differ only in user
information, query or fragment. -/
structure url.URL where
  Scheme : String
  Host : String
  Path : String
  User : String := ""
  RawQuery : String := ""
  Fragment : String := ""
deriving DecidableEq, Repr

/-- The struct `location` of `crawl.go`. -/
structure location where
  URL : url.URL
  Parent : Option url.URL
  Depth : Int
deriving DecidableEq, Repr

/-- The struct `Crawler` of `crawl.go` (`Wait` in nanoseconds). -/
structure Crawler where
  Domain : url.URL
  Depth : Int
  Parallel : Int
  Wait : Int
deriving DecidableEq, Repr

/-- Go `int` arithmetic on a 64-bit platform: the representative of `x` in
`[-2^63, 2^63)`. -/
def wrapInt (x : Int) : Int :=
  (x + 2 ^ 63) % 2 ^ 64 - 2 ^ 63

/-! ## Link filter -/

/-- Go's `strings.HasPrefix(s, p)`. -/
def HasPrefix (s p : String) : Bool :=
  p.data.isPrefixOf s.data

/-- The slice `prefixes` of `containsDisallowedPrefix`. -/
def disallowedPrefixes : List String :=
  ["mailto:", "monzo://", "tel:", "?", "#", "ftp://", "file://", "telnet://",
   "gopher://", "javascript:"]

/-- The function `containsDisallowedPrefix` of `crawl.go`: the loop returns
`true` at the first prefix its argument starts with. -/
def containsDisallowedPrefix (href : String) : Bool :=
  disallowedPrefixes.any (fun p => HasPrefix href p)

/-- The function `isExternal` of `crawl.go`. -/
def isExternal (href : String) (domain : url.URL) : Bool :=
  if !HasPrefix href "http://" && !HasPrefix href "https://" then false
  else if HasPrefix href (domain.Scheme ++ "://" ++ domain.Host) then false
  else true

/-- Not part of the code: the scheme and host an absolute href names, as text,
which is what the specification has `isExternal` compare. It is everything
before the first `/`, `?` or `#` that follows the `://` separator (RFC 3986:
the authority ends there). -/
def specSchemeHost (href : String) : String :=
  let cs := href.data
  let scheme := cs.takeWhile (fun c => c != ':')
  let rest := (cs.drop scheme.length).drop 3
  String.mk (scheme ++ "://".data ++ rest.takeWhile (fun c => c != '/' && c != '?' && c != '#'))

/-! ## Fetching a page -/

/-- What `http.Get` followed by `goquery.NewDocumentFromReader` yields for a
page: the status code, and either goquery's error or the `href` attribute of
every `a` element in document order (`none` when the element has none). -/
structure Response where
  StatusCode : Int
  document : Except String (List (Option String))

/-- The standard-library calls of the crawler, as data: `Get u` is the outcome
of `http.Get(u)` (an error text or a response), `Parse base ref` the outcome of
`base.Parse(ref)`, and `String u` the text `u.String()` returns (with Go's
escaping rules, whatever they are: no theorem depends on them). -/
structure World where
  Get : String → Except String Response
  Parse : url.URL → String → Except String url.URL
  String : url.URL → String

/-- The callback of `document.Find("a").Each` in `crawlDomain`, run over the
anchors in order: an href that exists, has no disallowed prefix and is not
external is appended to `links`. -/
def collectLinks (domain : url.URL) : List (Option String) → List String → List String
  | [], links => links
  | none :: rest, links => collectLinks domain rest links
  | some href :: rest, links =>
    if !containsDisallowedPrefix href && !isExternal href domain then
      collectLinks domain rest (links ++ [href])
    else collectLinks domain rest links

/-- The function `crawlDomain` of `crawl.go`: the links and the error. -/
def crawlDomain (W : World) (loc : location) : List String × Option String :=
  match W.Get (W.String loc.URL) with
  | .error err =>
    ([], some ("Warning: Failed to get url " ++ W.String loc.URL ++ ": " ++ err))
  | .ok resp =>
    if resp.StatusCode ≥ 400 then
      ([], some ("Warning: " ++ W.String loc.URL ++ " raised a status code "
        ++ toString resp.StatusCode))
    else if loc.Depth = 1 then ([], none)
    else
      match resp.document with
      | .error err =>
        ([], some ("Warning: Failed to parse html body for url " ++ W.String loc.URL
          ++ ": " ++ err))
      | .ok anchors => (collectLinks loc.URL anchors [], none)

/-- The loop of `convertToURLs`, with its two accumulators `urls` and
`invalids`. -/
def convertLoop (parse : String → Except String url.URL) :
    List String → List url.URL → List String → List url.URL × List String
  | [], urls, invalids => (urls, invalids)
  | stringURL :: rest, urls, invalids =>
    match parse stringURL with
    | .error _ => convertLoop parse rest urls (invalids ++ ["\x27" ++ stringURL ++ "\x27"])
    | .ok loc => convertLoop parse rest (urls ++ [loc]) invalids

/-- Go's `fmt.Sprintf("%v", xs)` for a slice of strings: the elements separated
by one blank, in square brackets. -/
def fmtStrings (xs : List String) : String :=
  "[" ++ " ".intercalate xs ++ "]"

/-- The function `convertToURLs` of `crawl.go`. -/
def convertToURLs (links : List String) (parse : String → Except String url.URL) :
    List url.URL × Option String :=
  let r := convertLoop parse links [] []
  (r.1, if r.2.length > 0 then some (fmtStrings r.2) else none)

/-- The locations `queueURLs` sends on `queue`, in the order it sends them. -/
def queueURLs (urls : List url.URL) (parent : url.URL) (depth : Int) : List location :=
  urls.map (fun u => { URL := u, Parent := some parent, Depth := depth })

/-- The slice `urls` a worker computes for `loc` in `Crawler.fetch`:
`crawlDomain(loc)` followed by `convertToURLs(links, loc.URL.Parse)`. -/
def fetchURLs (W : World) (loc : location) : List url.URL :=
  (convertToURLs (crawlDomain W loc).1 (W.Parse loc.URL)).1

/-- The locations a worker hands to `go queueURLs(queue, urls, loc.URL, loc.Depth-1)`
after it has fetched `loc`. -/
def childLocations (W : World) (loc : location) : List location :=
  queueURLs (fetchURLs W loc) loc.URL (wrapInt (loc.Depth - 1))

/-! ## The dedup stage, run over a sequence of arrivals -/

/-- The second goroutine of `buildQueues` over the locations it receives on
`queue`, starting with the visited set `visited`: the locations it sends on
`locations` and the deltas it sends on `pending`, each in order. `key` is the
method `(*url.URL).String` the goroutine calls for `u := loc.URL.String()`. -/
def dedupLoop (key : url.URL → String) : List location → List String → List location × List Int
  | [], _ => ([], [])
  | loc :: rest, visited =>
    if key loc.URL ∈ visited then
      let r := dedupLoop key rest visited
      (r.1, (-1) :: r.2)
    else
      let r := dedupLoop key rest (key loc.URL :: visited)
      (loc :: r.1, r.2)

/-- The dedup stage as `buildQueues` starts it: the visited set is empty. -/
def dedupStage (key : url.URL → String) (arrivals : List location) : List location × List Int :=
  dedupLoop key arrivals []

/-! ## The goroutines of `Crawler.Run`, `buildQueues` and `Crawler.fetch` -/

/-- Where the goroutine running `Crawler.Run` stands: at `pending <- 1`, at
`queue <- location{...}`, in the `for` loop with counter `i` (or, once the loop
is over, at `wg.Wait()`), or returned with the error it returns. -/
inductive MainPC where
  | seedPending
  | seedRoot
  | spawning (i : Nat)
  | returned (err : Option String)
deriving DecidableEq, Repr

/-- Where the dedup goroutine of `buildQueues` stands: at `range queue`, at
`locations <- loc`, at `pending <- -1`, between `close(locations)` and
`close(pending)`, or finished. -/
inductive DedupPC where
  | receiving
  | forwarding (loc : location)
  | rejecting
  | closing
  | done
deriving DecidableEq, Repr

/-- Where a goroutine running `Crawler.fetch` stands: at `range locations`,
between receiving `loc` and `pending <- len(urls) - 1`, or out of its loop. -/
inductive WorkerPC where
  | idle
  | busy (loc : location)
  | exited
deriving DecidableEq, Repr

/-- The state of one run of `Crawler.Run`. `feeders` holds, for every
`go queueURLs(...)` started so far, the locations it has still to send.
`zeroSeen` and `handed` are history: how often the watcher found
`queueCount == 0` (and executed `close(queue)`), and the locations the workers
received, in order. `queueCount` is kept as an unbounded integer: it counts
locations held in memory, far below the range of a Go `int`. -/
structure State where
  main : MainPC
  queueCount : Int
  visited : List String
  queueClosed : Bool
  locationsClosed : Bool
  pendingClosed : Bool
  watcherDone : Bool
  dedup : DedupPC
  workers : List WorkerPC
  feeders : List (List location)
  panicked : Bool
  zeroSeen : Nat
  handed : List location
deriving DecidableEq, Repr

/-- The state in which `Run` has called `buildQueues` and sent nothing yet. -/
def init : State :=
  { main := .seedPending, queueCount := 0, visited := [], queueClosed := false,
    locationsClosed := false, pendingClosed := false, watcherDone := false,
    dedup := .receiving, workers := [], feeders := [], panicked := false,
    zeroSeen := 0, handed := [] }

/-- The location `Run` sends first. -/
def rootLocation (c : Crawler) : location :=
  { URL := c.Domain, Parent := none, Depth := c.Depth }

/-- A goroutine panics (send on a closed channel, close of a closed channel):
the program stops. -/
def crash (s : State) : State :=
  { s with panicked := true }

/-- The body of the watcher's loop for one received `delta`:
`queueCount += delta; if queueCount == 0 { close(queue) }`. -/
def watch (s : State) (delta : Int) : State :=
  let t := { s with queueCount := s.queueCount + delta }
  if t.queueCount = 0 then
    if t.queueClosed then { t with zeroSeen := t.zeroSeen + 1, panicked := true }
    else { t with zeroSeen := t.zeroSeen + 1, queueClosed := true }
  else t

/-- A send `pending <- delta`, the sender continuing with `k`: it panics when
`pending` is closed, and it completes only with the watcher at its receive. -/
def sendPending (s : State) (delta : Int) (k : State → State) : Option State :=
  if s.pendingClosed then some (crash s)
  else if s.watcherDone then none
  else some (k (watch s delta))

/-- The body of the dedup loop for one received `loc`, up to its send. -/
def dedupReceive (W : World) (s : State) (loc : location) : State :=
  if W.String loc.URL ∈ s.visited then { s with dedup := .rejecting }
  else { s with visited := W.String loc.URL :: s.visited, dedup := .forwarding loc }

/-- A send `queue <- loc`, the sender continuing with `k`: it panics when
`queue` is closed, and it completes only with the dedup goroutine at its
receive. -/
def sendQueue (W : World) (s : State) (loc : location) (k : State → State) :
    Option State :=
  if s.queueClosed then some (crash s)
  else
    match s.dedup with
    | .receiving => some (k (dedupReceive W s loc))
    | _ => none

/-- The scheduler's choices: which goroutine moves (worker `w`, feeder `g`). -/
inductive Action where
  | seedPending
  | seedRoot
  | spawn
  | take (w : Nat)
  | finish (w : Nat)
  | enqueue (g : Nat)
  | reject
  | closeLocations
  | closePending
  | workerExit (w : Nat)
  | watcherExit
  | mainReturn
deriving DecidableEq, Repr

/-- Whether the action is a send on `pending`. -/
def Action.sendsPending : Action → Bool
  | .seedPending => true
  | .finish _ => true
  | .reject => true
  | _ => false

/-- Whether the action is a send on `queue`. -/
def Action.sendsQueue : Action → Bool
  | .seedRoot => true
  | .enqueue _ => true
  | _ => false

/-- One step of the program: `none` when the goroutine the action names cannot
move in `s`. -/
def step (W : World) (c : Crawler) (s : State) (a : Action) : Option State :=
  if s.panicked then none
  else
    match a with
    | .seedPending =>
      match s.main with
      | .seedPending => sendPending s 1 (fun t => { t with main := .seedRoot })
      | _ => none
    | .seedRoot =>
      match s.main with
      | .seedRoot => sendQueue W s (rootLocation c) (fun t => { t with main := .spawning 0 })
      | _ => none
    | .spawn =>
      match s.main with
      | .spawning i =>
        if (i : Int) < c.Parallel then
          some { s with main := .spawning (i + 1), workers := s.workers ++ [.idle] }
        else none
      | _ => none
    | .take w =>
      match s.dedup, s.workers[w]? with
      | .forwarding loc, some .idle =>
        some { s with dedup := .receiving, workers := s.workers.set w (.busy loc),
                      handed := s.handed ++ [loc] }
      | _, _ => none
    | .finish w =>
      match s.workers[w]? with
      | some (.busy loc) =>
        sendPending s (((fetchURLs W loc).length : Int) - 1)
          (fun t => { t with workers := t.workers.set w .idle,
                             feeders := t.feeders ++ [childLocations W loc] })
      | _ => none
    | .enqueue g =>
      match s.feeders[g]? with
      | some (loc :: rest) => sendQueue W s loc (fun t => { t with feeders := t.feeders.set g rest })
      | _ => none
    | .reject =>
      match s.dedup with
      | .rejecting => sendPending s (-1) (fun t => { t with dedup := .receiving })
      | _ => none
    | .closeLocations =>
      match s.dedup with
      | .receiving =>
        if s.queueClosed then some { s with locationsClosed := true, dedup := .closing }
        else none
      | _ => none
    | .closePending =>
      match s.dedup with
      | .closing => some { s with pendingClosed := true, dedup := .done }
      | _ => none
    | .workerExit w =>
      match s.workers[w]? with
      | some .idle =>
        if s.locationsClosed then some { s with workers := s.workers.set w .exited }
        else none
      | _ => none
    | .watcherExit =>
      if s.pendingClosed && !s.watcherDone then some { s with watcherDone := true }
      else none
    | .mainReturn =>
      match s.main with
      | .spawning i =>
        if ¬ ((i : Int) < c.Parallel) ∧ s.workers.all (fun w => w == .exited) then
          some { s with main := .returned none }
        else none
      | _ => none

/-- The state after a schedule, when every action of it can move. -/
def exec (W : World) (c : Crawler) : State → List Action → Option State
  | s, [] => some s
  | s, a :: rest => (step W c s a).bind (fun t => exec W c t rest)

/-- The states a run of `Crawler.Run` passes through. -/
inductive Reachable (W : World) (c : Crawler) : State → Prop where
  | start : Reachable W c init
  | next {s t : State} (a : Action) : Reachable W c s → step W c s a = some t → Reachable W c t

/-- The run is over: `Run` has returned `nil`, the three channels are closed and
every goroutine has left its loop. -/
def Final (s : State) : Prop :=
  s.main = .returned none ∧ s.queueClosed = true ∧ s.locationsClosed = true ∧
  s.pendingClosed = true ∧ s.dedup = .done ∧ s.watcherDone = true ∧
  (∀ w ∈ s.workers, w = .exited) ∧ s.panicked = false

/-- The text `String()` returns for a URL with a host, a path that is empty or
starts with `/`, and no character that needs escaping; the test worlds below
use it. -/
def plainString (u : url.URL) : String :=
  u.Scheme ++ "://" ++ (if u.User = "" then "" else u.User ++ "@") ++ u.Host ++ u.Path ++
    (if u.RawQuery = "" then "" else "?" ++ u.RawQuery) ++
    (if u.Fragment = "" then "" else "#" ++ u.Fragment)

/-- A test world: page `A` links to `B` (twice) and to a mail address, page `B`
links back to `A`; every other request fails. -/
def cycleWorld : World :=
  { Get := fun u =>
      if u = "http://a.test" then
        .ok { StatusCode := 200, document := .ok [some "/b", none, some "mailto:x@a.test", some "/b"] }
      else if u = "http://a.test/b" then
        .ok { StatusCode := 200, document := .ok [some "http://a.test"] }
      else .error "no such host",
    Parse := fun _ ref =>
      if ref = "/b" then .ok { Scheme := "http", Host := "a.test", Path := "/b" }
      else if ref = "http://a.test" then .ok { Scheme := "http", Host := "a.test", Path := "" }
      else .error "invalid",
    String := plainString }

/-- A configuration for `cycleWorld`: unbounded depth, two workers. -/
def cycleCrawler : Crawler :=
  { Domain := { Scheme := "http", Host := "a.test", Path := "" }, Depth := 0,
    Parallel := 2, Wait := 0 }

/-- A complete schedule of `cycleCrawler` on `cycleWorld`. -/
def cycleSchedule : List Action :=
  [.seedPending, .seedRoot, .spawn, .take 0, .spawn, .finish 0, .enqueue 0, .take 1,
   .enqueue 0, .reject, .finish 1, .enqueue 1, .reject, .closeLocations, .workerExit 0,
   .workerExit 1, .mainReturn, .closePending, .watcherExit]

/-- The state of `cycleCrawler` on `cycleWorld` after the first nine actions of
`cycleSchedule`: page `B` is being fetched and its second arrival is about to
be rejected. -/
def cycleMid : State :=
  { main := .spawning 2, queueCount := 2,
    visited := ["http://a.test/b", "http://a.test"],
    queueClosed := false, locationsClosed := false, pendingClosed := false,
    watcherDone := false, dedup := .rejecting,
    workers := [.idle, .busy { URL := { Scheme := "http", Host := "a.test", Path := "/b" },
                               Parent := some { Scheme := "http", Host := "a.test", Path := "" }, Depth := -1 }],
    feeders := [[]], panicked := false, zeroSeen := 0,
    handed := [{ URL := { Scheme := "http", Host := "a.test", Path := "" }, Parent := none, Depth := 0 },
               { URL := { Scheme := "http", Host := "a.test", Path := "/b" },
                 Parent := some { Scheme := "http", Host := "a.test", Path := "" }, Depth := -1 }] }

/-- The URL strings of `cycleWorld`. -/
def cycleURLs : List String :=
  ["http://a.test", "http://a.test/b"]

/-- The configuration `cycleCrawler` with no worker. -/
def idleCrawler : Crawler :=
  { cycleCrawler with Parallel := 0 }

/-- The configuration `cycleCrawler` with depth 2. -/
def shallowCrawler : Crawler :=
  { cycleCrawler with Depth := 2 }

/-- Four links for `sampleParse`. -/
def sampleLinks : List String :=
  ["/a", "%zz", "/b", ":x"]

/-- A parse function that rejects `%zz` and `:x` and resolves every other link
as a path on `http://a.test`. -/
def sampleParse (ref : String) : Except String url.URL :=
  if ref = "%zz" ∨ ref = ":x" then .error "invalid"
  else .ok { Scheme := "http", Host := "a.test", Path := ref }

/-- Four arrivals on `queue`: `/b`, `/b?x=1`, `/b#top` and `/b` again. -/
def sampleArrivals : List location :=
  [{ URL := { Scheme := "http", Host := "a.test", Path := "/b" }, Parent := none, Depth := 0 },
   { URL := { Scheme := "http", Host := "a.test", Path := "/b", RawQuery := "x=1" },
     Parent := none, Depth := 0 },
   { URL := { Scheme := "http", Host := "a.test", Path := "/b", Fragment := "top" },
     Parent := none, Depth := 0 },
   { URL := { Scheme := "http", Host := "a.test", Path := "/b" }, Parent := none, Depth := 0 }]

/-- A test world for the link filter: the page `http://example.com` has one
anchor, to `http://example.com.evil.org/x`. -/
def spoofWorld : World :=
  { Get := fun u =>
      if u = "http://example.com" then
        .ok { StatusCode := 200, document := .ok [some "http://example.com.evil.org/x"] }
      else .error "no such host",
    Parse := fun _ ref =>
      if ref = "http://example.com.evil.org/x" then
        .ok { Scheme := "http", Host := "example.com.evil.org", Path := "/x" }
      else .error "invalid",
    String := plainString }

/-! ## Quantities and invariants of a state -/

/-- One when `Run` has announced the root on `pending` and not yet sent it. -/
def MainPC.load : MainPC → Nat
  | .seedRoot => 1
  | _ => 0

/-- One when the dedup goroutine holds a location it has not yet passed on or
accounted for. -/
def DedupPC.load : DedupPC → Nat
  | .forwarding _ => 1
  | .rejecting => 1
  | _ => 0

/-- One when the worker holds a location whose delta it has not yet sent. -/
def WorkerPC.load : WorkerPC → Nat
  | .busy _ => 1
  | _ => 0

/-- The locations still to be sent by the `queueURLs` goroutines. -/
def feederLoad (s : State) : Nat :=
  (s.feeders.map List.length).sum

/-- The number of locations that have been issued (announced on `pending` by
`Run` or by the worker that discovered them) and are not yet resolved (neither
finished by a worker nor rejected by the dedup stage): the root before it is
sent, the locations waiting in `queueURLs` goroutines, the one the dedup stage
holds, and the ones the workers are fetching. -/
def unresolved (s : State) : Nat :=
  s.main.load + feederLoad s + s.dedup.load + (s.workers.map WorkerPC.load).sum

/-- The invariant of the Frontier. -/
structure Inv (c : Crawler) (s : State) : Prop where
  noPanic : s.panicked = false
  count : s.queueCount = (unresolved s : Int)
  closed : s.queueClosed = true ↔ (s.main ≠ .seedPending ∧ s.queueCount = 0)
  zero : s.zeroSeen = if s.queueClosed then 1 else 0
  early : (s.main = .seedPending ∨ s.main = .seedRoot) →
    s.dedup = .receiving ∧ s.workers = [] ∧ s.feeders = []
  locs : s.locationsClosed = true ↔ (s.dedup = .closing ∨ s.dedup = .done)
  pend : s.pendingClosed = true ↔ s.dedup = .done
  late : (s.dedup = .closing ∨ s.dedup = .done) → s.queueClosed = true
  watcher : s.watcherDone = true → s.pendingClosed = true
  exited : WorkerPC.exited ∈ s.workers → s.locationsClosed = true
  spawned : ∀ i, s.main = .spawning i → s.workers.length = i
  ret : ∀ e, s.main = .returned e →
    e = none ∧ (∀ w ∈ s.workers, w = WorkerPC.exited) ∧ c.Parallel ≤ (s.workers.length : Int)

/-- Every location the state holds satisfies `P`. -/
structure Holds (P : location → Prop) (s : State) : Prop where
  feeders : ∀ f ∈ s.feeders, ∀ l ∈ f, P l
  dedup : ∀ l, s.dedup = .forwarding l → P l
  workers : ∀ l, WorkerPC.busy l ∈ s.workers → P l
  handed : ∀ l ∈ s.handed, P l

/-- A chain of parents of length `n` from the root: `Chain W c n l` when `l` is
the root location (`n = 0`) or was produced by a worker from a location with a
chain of length `n - 1`. -/
inductive Chain (W : World) (c : Crawler) : Nat → location → Prop where
  | root : Chain W c 0 (rootLocation c)
  | child {n : Nat} {p l : location} :
      Chain W c n p → l ∈ childLocations W p → Chain W c (n + 1) l

/-! ## Termination measure -/

/-- Rank of `Run`'s position. -/
def MainPC.rank (c : Crawler) : MainPC → Nat
  | .seedPending => 2 * c.Parallel.toNat + 5
  | .seedRoot => 2 * c.Parallel.toNat + 4
  | .spawning i => 2 * (c.Parallel.toNat - i) + 1
  | .returned _ => 0

/-- Rank of the dedup goroutine's position. -/
def DedupPC.rank : DedupPC → Nat
  | .forwarding _ => 4
  | .rejecting => 3
  | .receiving => 2
  | .closing => 1
  | .done => 0

/-- Rank of a worker's position. -/
def WorkerPC.rank : WorkerPC → Nat
  | .exited => 0
  | _ => 1

/-- The control part of the measure. -/
def control (c : Crawler) (s : State) : Nat :=
  s.main.rank c + s.dedup.rank + (s.workers.map WorkerPC.rank).sum +
    (if s.watcherDone then 0 else 1) + (if s.panicked then 0 else 1)

/-- Locations admitted by the dedup stage and not yet finished by a worker. -/
def inflight (s : State) : Nat :=
  (match s.dedup with
    | .forwarding _ => 1
    | _ => 0) + (s.workers.map WorkerPC.load).sum

/-- The URL strings of `U` not yet visited. -/
def unvisited (U : List String) (s : State) : Nat :=
  (U.filter (fun u => decide (u ∉ s.visited))).length

/-- The measure that decreases with every step, in lexicographic order. -/
def weight (U : List String) (c : Crawler) (s : State) : ℕ ×ₗ ℕ ×ₗ ℕ ×ₗ ℕ :=
  toLex (unvisited U s, toLex (inflight s, toLex (feederLoad s, control c s)))

/-- The link graph is finite: `U` lists URL strings containing the root and
every URL a worker can discover from a page whose URL string is in `U`. -/
def FiniteGraph (W : World) (c : Crawler) (U : List String) : Prop :=
  W.String c.Domain ∈ U ∧
  ∀ loc : location, W.String loc.URL ∈ U → ∀ u ∈ fetchURLs W loc, W.String u ∈ U

/-! ## The command -/

/-- The function `crawl` of `crawl.go`, given the outcome of reading the three
flags and of `url.ParseRequestURI(args[0])`, and the error `Crawler.Run`
returns. -/
def crawl (W : World) (depth parallel wait : Except String Int)
    (domain : Except String url.URL) (Run : Crawler → Option String) : Option String :=
  match depth with
  | .error _ => some "The depth flag provided is not valid!"
  | .ok depth =>
    match parallel with
    | .error _ => some "The parallel flag provided is not valid!"
    | .ok parallel =>
      match wait with
      | .error _ => some "The wait flag provided is not valid!"
      | .ok wait =>
        match domain with
        | .error _ => some "The domain name provided is not valid!"
        | .ok domain =>
          if domain.Path.length ≠ 0 then some "Please only provide the root domain name!"
          else
            match Run { Domain := domain, Depth := depth, Parallel := parallel, Wait := wait } with
            | some _ => some ("Failed to crawl " ++ W.String domain)
            | none => none

/-! # Theorems -/

/-! ## Lists of goroutines -/

theorem sum_map_set {α : Type} (f : α → ℕ) :
    ∀ (l : List α) (i : ℕ) (x y : α), l[i]? = some x →
      ((l.set i y).map f).sum + f x = (l.map f).sum + f y := by
  intro l
  induction l with
  | nil => intro i x y h; simp at h
  | cons a rest ih =>
    intro i x y h
    cases i with
    | zero =>
      simp only [List.getElem?_cons_zero, Option.some.injEq] at h
      subst h
      simp only [List.set_cons_zero, List.map_cons, List.sum_cons]
      omega
    | succ j =>
      simp only [List.getElem?_cons_succ] at h
      have := ih j x y h
      simp only [List.set_cons_succ, List.map_cons, List.sum_cons]
      omega

/-! ## Field-by-field description of the primitive transitions -/

@[simp] theorem watch_main (s : State) (d : Int) : (watch s d).main = s.main := by
  unfold watch; dsimp only; split <;> [split; skip] <;> rfl

@[simp] theorem watch_queueCount (s : State) (d : Int) :
    (watch s d).queueCount = s.queueCount + d := by
  unfold watch; dsimp only; split <;> [split; skip] <;> rfl

@[simp] theorem watch_visited (s : State) (d : Int) : (watch s d).visited = s.visited := by
  unfold watch; dsimp only; split <;> [split; skip] <;> rfl

@[simp] theorem watch_locationsClosed (s : State) (d : Int) :
    (watch s d).locationsClosed = s.locationsClosed := by
  unfold watch; dsimp only; split <;> [split; skip] <;> rfl

@[simp] theorem watch_pendingClosed (s : State) (d : Int) :
    (watch s d).pendingClosed = s.pendingClosed := by
  unfold watch; dsimp only; split <;> [split; skip] <;> rfl

@[simp] theorem watch_watcherDone (s : State) (d : Int) :
    (watch s d).watcherDone = s.watcherDone := by
  unfold watch; dsimp only; split <;> [split; skip] <;> rfl

@[simp] theorem watch_dedup (s : State) (d : Int) : (watch s d).dedup = s.dedup := by
  unfold watch; dsimp only; split <;> [split; skip] <;> rfl

@[simp] theorem watch_workers (s : State) (d : Int) : (watch s d).workers = s.workers := by
  unfold watch; dsimp only; split <;> [split; skip] <;> rfl

@[simp] theorem watch_feeders (s : State) (d : Int) : (watch s d).feeders = s.feeders := by
  unfold watch; dsimp only; split <;> [split; skip] <;> rfl

@[simp] theorem watch_handed (s : State) (d : Int) : (watch s d).handed = s.handed := by
  unfold watch; dsimp only; split <;> [split; skip] <;> rfl

theorem watch_queueClosed (s : State) (d : Int) :
    (watch s d).queueClosed = (s.queueClosed || decide (s.queueCount + d = 0)) := by
  unfold watch; dsimp only
  split
  · rename_i h; split <;> simp_all
  · rename_i h; simp [h]

theorem watch_panicked (s : State) (d : Int) :
    (watch s d).panicked = (s.panicked || (s.queueClosed && decide (s.queueCount + d = 0))) := by
  unfold watch; dsimp only
  split
  · rename_i h; split <;> simp_all
  · rename_i h; simp [h]

theorem watch_zeroSeen (s : State) (d : Int) :
    (watch s d).zeroSeen = s.zeroSeen + (if s.queueCount + d = 0 then 1 else 0) := by
  unfold watch; dsimp only
  split
  · rename_i h; split <;> simp_all
  · rename_i h; simp [h]

/-! ## What each action does -/

theorem step_noPanic {W : World} {c : Crawler} {s t : State} {a : Action}
    (h : step W c s a = some t) : s.panicked = false := by
  unfold step at h
  split at h
  · simp at h
  · rename_i hp; simpa using hp

theorem sendPending_cases {s t : State} {d : Int} {k : State → State}
    (h : sendPending s d k = some t) :
    (s.pendingClosed = true ∧ t = crash s) ∨
    (s.pendingClosed = false ∧ s.watcherDone = false ∧ t = k (watch s d)) := by
  unfold sendPending at h
  split at h
  · rename_i hc
    exact Or.inl ⟨hc, by simpa using h.symm⟩
  · rename_i hc
    split at h
    · simp at h
    · rename_i hw
      exact Or.inr ⟨by simpa using hc, by simpa using hw, by simpa using h.symm⟩

theorem sendQueue_cases {W : World} {s t : State} {loc : location} {k : State → State}
    (h : sendQueue W s loc k = some t) :
    (s.queueClosed = true ∧ t = crash s) ∨
    (s.queueClosed = false ∧ s.dedup = .receiving ∧ t = k (dedupReceive W s loc)) := by
  unfold sendQueue at h
  split at h
  · rename_i hc
    exact Or.inl ⟨hc, by simpa using h.symm⟩
  · rename_i hc
    split at h
    · rename_i hd
      exact Or.inr ⟨by simpa using hc, hd, by simpa using h.symm⟩
    · simp at h

theorem step_seedPending {W : World} {c : Crawler} {s t : State}
    (h : step W c s .seedPending = some t) :
    s.main = .seedPending ∧
      sendPending s 1 (fun t => { t with main := .seedRoot }) = some t := by
  have hp := step_noPanic h
  unfold step at h
  rw [if_neg (by simp [hp])] at h
  dsimp only at h
  split at h
  · rename_i hm; exact ⟨hm, h⟩
  · simp at h

theorem step_seedRoot {W : World} {c : Crawler} {s t : State}
    (h : step W c s .seedRoot = some t) :
    s.main = .seedRoot ∧
      sendQueue W s (rootLocation c) (fun t => { t with main := .spawning 0 }) = some t := by
  have hp := step_noPanic h
  unfold step at h
  rw [if_neg (by simp [hp])] at h
  dsimp only at h
  split at h
  · rename_i hm; exact ⟨hm, h⟩
  · simp at h

theorem step_spawn {W : World} {c : Crawler} {s t : State}
    (h : step W c s .spawn = some t) :
    ∃ i, s.main = .spawning i ∧ (i : Int) < c.Parallel ∧
      t = { s with main := .spawning (i + 1), workers := s.workers ++ [.idle] } := by
  have hp := step_noPanic h
  unfold step at h
  rw [if_neg (by simp [hp])] at h
  dsimp only at h
  split at h
  · rename_i i hm
    split at h
    · rename_i hlt
      exact ⟨i, hm, hlt, by simpa using h.symm⟩
    · simp at h
  · simp at h

theorem step_take {W : World} {c : Crawler} {s t : State} {w : Nat}
    (h : step W c s (.take w) = some t) :
    ∃ loc, s.dedup = .forwarding loc ∧ s.workers[w]? = some .idle ∧
      t = { s with dedup := .receiving, workers := s.workers.set w (.busy loc),
                   handed := s.handed ++ [loc] } := by
  have hp := step_noPanic h
  unfold step at h
  rw [if_neg (by simp [hp])] at h
  dsimp only at h
  split at h
  · rename_i loc hd hw
    exact ⟨loc, hd, hw, by simpa using h.symm⟩
  · simp at h

theorem step_finish {W : World} {c : Crawler} {s t : State} {w : Nat}
    (h : step W c s (.finish w) = some t) :
    ∃ loc, s.workers[w]? = some (.busy loc) ∧
      sendPending s (((fetchURLs W loc).length : Int) - 1)
        (fun t => { t with workers := t.workers.set w .idle,
                           feeders := t.feeders ++ [childLocations W loc] }) = some t := by
  have hp := step_noPanic h
  unfold step at h
  rw [if_neg (by simp [hp])] at h
  dsimp only at h
  split at h
  · rename_i loc hw
    exact ⟨loc, hw, h⟩
  · simp at h

theorem step_enqueue {W : World} {c : Crawler} {s t : State} {g : Nat}
    (h : step W c s (.enqueue g) = some t) :
    ∃ loc rest, s.feeders[g]? = some (loc :: rest) ∧
      sendQueue W s loc (fun t => { t with feeders := t.feeders.set g rest }) = some t := by
  have hp := step_noPanic h
  unfold step at h
  rw [if_neg (by simp [hp])] at h
  dsimp only at h
  split at h
  · rename_i loc rest hf
    exact ⟨loc, rest, hf, h⟩
  · simp at h

theorem step_reject {W : World} {c : Crawler} {s t : State}
    (h : step W c s .reject = some t) :
    s.dedup = .rejecting ∧
      sendPending s (-1) (fun t => { t with dedup := .receiving }) = some t := by
  have hp := step_noPanic h
  unfold step at h
  rw [if_neg (by simp [hp])] at h
  dsimp only at h
  split at h
  · rename_i hd; exact ⟨hd, h⟩
  · simp at h

theorem step_closeLocations {W : World} {c : Crawler} {s t : State}
    (h : step W c s .closeLocations = some t) :
    s.dedup = .receiving ∧ s.queueClosed = true ∧
      t = { s with locationsClosed := true, dedup := .closing } := by
  have hp := step_noPanic h
  unfold step at h
  rw [if_neg (by simp [hp])] at h
  dsimp only at h
  split at h
  · rename_i hd
    split at h
    · rename_i hq; exact ⟨hd, hq, by simpa using h.symm⟩
    · simp at h
  · simp at h

theorem step_closePending {W : World} {c : Crawler} {s t : State}
    (h : step W c s .closePending = some t) :
    s.dedup = .closing ∧ t = { s with pendingClosed := true, dedup := .done } := by
  have hp := step_noPanic h
  unfold step at h
  rw [if_neg (by simp [hp])] at h
  dsimp only at h
  split at h
  · rename_i hd; exact ⟨hd, by simpa using h.symm⟩
  · simp at h

theorem step_workerExit {W : World} {c : Crawler} {s t : State} {w : Nat}
    (h : step W c s (.workerExit w) = some t) :
    s.workers[w]? = some .idle ∧ s.locationsClosed = true ∧
      t = { s with workers := s.workers.set w .exited } := by
  have hp := step_noPanic h
  unfold step at h
  rw [if_neg (by simp [hp])] at h
  dsimp only at h
  split at h
  · rename_i hw
    split at h
    · rename_i hl; exact ⟨hw, hl, by simpa using h.symm⟩
    · simp at h
  · simp at h

theorem step_watcherExit {W : World} {c : Crawler} {s t : State}
    (h : step W c s .watcherExit = some t) :
    s.pendingClosed = true ∧ s.watcherDone = false ∧ t = { s with watcherDone := true } := by
  have hp := step_noPanic h
  unfold step at h
  rw [if_neg (by simp [hp])] at h
  dsimp only at h
  split at h
  · rename_i hc
    simp only [Bool.and_eq_true, Bool.not_eq_true'] at hc
    exact ⟨hc.1, hc.2, by simpa using h.symm⟩
  · simp at h

theorem step_mainReturn {W : World} {c : Crawler} {s t : State}
    (h : step W c s .mainReturn = some t) :
    ∃ i, s.main = .spawning i ∧ ¬ ((i : Int) < c.Parallel) ∧
      (∀ w ∈ s.workers, w = WorkerPC.exited) ∧ t = { s with main := .returned none } := by
  have hp := step_noPanic h
  unfold step at h
  rw [if_neg (by simp [hp])] at h
  dsimp only at h
  split at h
  · rename_i i hm
    split at h
    · rename_i hc
      refine ⟨i, hm, hc.1, ?_, by simpa using h.symm⟩
      have := hc.2
      simpa using this
    · simp at h
  · simp at h

/-! ## The invariant of the Frontier is preserved -/

@[simp] theorem dedupReceive_main (W : World) (s : State) (l : location) :
    (dedupReceive W s l).main = s.main := by
  unfold dedupReceive; split <;> rfl

@[simp] theorem dedupReceive_queueCount (W : World) (s : State) (l : location) :
    (dedupReceive W s l).queueCount = s.queueCount := by
  unfold dedupReceive; split <;> rfl

@[simp] theorem dedupReceive_queueClosed (W : World) (s : State) (l : location) :
    (dedupReceive W s l).queueClosed = s.queueClosed := by
  unfold dedupReceive; split <;> rfl

@[simp] theorem dedupReceive_locationsClosed (W : World) (s : State) (l : location) :
    (dedupReceive W s l).locationsClosed = s.locationsClosed := by
  unfold dedupReceive; split <;> rfl

@[simp] theorem dedupReceive_pendingClosed (W : World) (s : State) (l : location) :
    (dedupReceive W s l).pendingClosed = s.pendingClosed := by
  unfold dedupReceive; split <;> rfl

@[simp] theorem dedupReceive_watcherDone (W : World) (s : State) (l : location) :
    (dedupReceive W s l).watcherDone = s.watcherDone := by
  unfold dedupReceive; split <;> rfl

@[simp] theorem dedupReceive_workers (W : World) (s : State) (l : location) :
    (dedupReceive W s l).workers = s.workers := by
  unfold dedupReceive; split <;> rfl

@[simp] theorem dedupReceive_feeders (W : World) (s : State) (l : location) :
    (dedupReceive W s l).feeders = s.feeders := by
  unfold dedupReceive; split <;> rfl

@[simp] theorem dedupReceive_panicked (W : World) (s : State) (l : location) :
    (dedupReceive W s l).panicked = s.panicked := by
  unfold dedupReceive; split <;> rfl

@[simp] theorem dedupReceive_zeroSeen (W : World) (s : State) (l : location) :
    (dedupReceive W s l).zeroSeen = s.zeroSeen := by
  unfold dedupReceive; split <;> rfl

@[simp] theorem dedupReceive_handed (W : World) (s : State) (l : location) :
    (dedupReceive W s l).handed = s.handed := by
  unfold dedupReceive; split <;> rfl

theorem dedupReceive_dedup (W : World) (s : State) (l : location) :
    ((dedupReceive W s l).dedup = .rejecting ∧ W.String l.URL ∈ s.visited ∧
        (dedupReceive W s l).visited = s.visited) ∨
    ((dedupReceive W s l).dedup = .forwarding l ∧ W.String l.URL ∉ s.visited ∧
        (dedupReceive W s l).visited = W.String l.URL :: s.visited) := by
  unfold dedupReceive
  split
  · rename_i h; exact Or.inl ⟨rfl, h, rfl⟩
  · rename_i h; exact Or.inr ⟨rfl, h, rfl⟩

theorem dedupReceive_load (W : World) (s : State) (l : location) : (dedupReceive W s l).dedup.load = 1 := by
  rcases dedupReceive_dedup W s l with h | h <;> rw [h.1] <;> rfl

theorem dedupReceive_open (W : World) (s : State) (l : location) :
    (dedupReceive W s l).dedup ≠ .receiving ∧ (dedupReceive W s l).dedup ≠ .closing ∧
      (dedupReceive W s l).dedup ≠ .done := by
  rcases dedupReceive_dedup W s l with h | h <;> rw [h.1] <;> simp

theorem watch_open (s : State) (d : Int) (hq : s.queueClosed = false) (hz : s.zeroSeen = 0)
    (hp : s.panicked = false) :
    (watch s d).panicked = false ∧
    ((watch s d).queueClosed = true ↔ s.queueCount + d = 0) ∧
    (watch s d).zeroSeen = if (watch s d).queueClosed then 1 else 0 := by
  rw [watch_panicked, watch_queueClosed, watch_zeroSeen, hq, hz, hp]
  by_cases h : s.queueCount + d = 0 <;> simp [h]

theorem inv_open {c : Crawler} {s : State} (hI : Inv c s) (h : 0 < unresolved s) :
    s.queueClosed = false ∧ s.zeroSeen = 0 := by
  have h1 : s.queueClosed = false := by
    cases hq : s.queueClosed with
    | false => rfl
    | true =>
      have := (hI.closed.1 hq).2
      rw [hI.count] at this
      omega
  refine ⟨h1, ?_⟩
  have := hI.zero
  rw [h1] at this
  simpa using this

theorem load_pos_of_mem {ws : List WorkerPC} {l : location} (h : WorkerPC.busy l ∈ ws) :
    0 < (ws.map WorkerPC.load).sum := by
  induction ws with
  | nil => simp at h
  | cons a rest ih =>
    rcases List.mem_cons.1 h with h1 | h1
    · subst h1; simp [WorkerPC.load]
    · have := ih h1
      simp only [List.map_cons, List.sum_cons]
      omega

theorem length_pos_of_mem {fs : List (List location)} {l : location} {rest : List location}
    (h : (l :: rest) ∈ fs) : 0 < (fs.map List.length).sum := by
  induction fs with
  | nil => simp at h
  | cons a more ih =>
    rcases List.mem_cons.1 h with h1 | h1
    · subst h1; simp
    · have := ih h1
      simp only [List.map_cons, List.sum_cons]
      omega

theorem inv_finish {W : World} {c : Crawler} {s t : State} {w : Nat} (hI : Inv c s)
    (h : step W c s (.finish w) = some t) : Inv c t := by
  obtain ⟨loc, hw, hs⟩ := step_finish h
  have hmem : WorkerPC.busy loc ∈ s.workers := List.getElem?_mem hw
  have hpos : 0 < unresolved s := by
    have := load_pos_of_mem hmem
    unfold unresolved; omega
  obtain ⟨hq, hz⟩ := inv_open hI hpos
  have hne : s.workers ≠ [] := List.ne_nil_of_mem hmem
  have hearly : ¬ (s.main = .seedPending ∨ s.main = .seedRoot) := fun hm =>
    hne (hI.early hm).2.1
  have hsum := sum_map_set WorkerPC.load s.workers w (.busy loc) .idle hw
  have hlen : (childLocations W loc).length = (fetchURLs W loc).length := by
    simp [childLocations, queueURLs]
  rcases sendPending_cases hs with ⟨hc, _⟩ | ⟨hc, hwd, rfl⟩
  · have := hI.late (Or.inr (hI.pend.1 hc))
    rw [hq] at this
    exact absurd this (by simp)
  · obtain ⟨w1, w2, w3⟩ := watch_open s (((fetchURLs W loc).length : Int) - 1) hq hz hI.noPanic
    have hnat : unresolved { watch s (((fetchURLs W loc).length : Int) - 1) with
            workers := s.workers.set w .idle,
            feeders := s.feeders ++ [childLocations W loc] } + 1 =
          unresolved s + (fetchURLs W loc).length := by
      simp only [unresolved, feederLoad, watch_main, watch_dedup, List.map_append, List.sum_append,
        List.map_cons, List.map_nil, List.sum_cons, List.sum_nil, hlen] at hsum hpos ⊢
      simp only [WorkerPC.load] at hsum
      omega
    have hcount : s.queueCount + (((fetchURLs W loc).length : Int) - 1) =
        ((unresolved { watch s (((fetchURLs W loc).length : Int) - 1) with
            workers := s.workers.set w .idle,
            feeders := s.feeders ++ [childLocations W loc] } : Nat) : Int) := by
      rw [hI.count]
      omega
    refine ⟨w1, ?_, ?_, w3, ?_, ?_, ?_, ?_, ?_, ?_, ?_, ?_⟩
    · simpa using hcount
    · show (watch s _).queueClosed = true ↔ _
      rw [w2]
      simp only [watch_main, watch_queueCount]
      constructor
      · intro h0; exact ⟨fun hm => hearly (Or.inl hm), h0⟩
      · intro h0; exact h0.2
    · intro hm
      exact absurd (by simpa using hm) hearly
    · simpa using hI.locs
    · simpa using hI.pend
    · intro hd
      have := hI.late (by simpa using hd)
      rw [hq] at this
      exact absurd this (by simp)
    · simpa using hI.watcher
    · intro hx
      have hx : WorkerPC.exited ∈ s.workers.set w .idle := by simpa using hx
      rcases List.mem_or_eq_of_mem_set hx with h1 | h1
      · simpa using hI.exited h1
      · simp at h1
    · intro i hm
      have := hI.spawned i (by simpa using hm)
      simpa using this
    · intro e hm
      have := (hI.ret e (by simpa using hm)).2.1 _ hmem
      simp at this

theorem inv_seedPending {W : World} {c : Crawler} {s t : State} (hI : Inv c s)
    (h : step W c s .seedPending = some t) : Inv c t := by
  obtain ⟨hm, hs⟩ := step_seedPending h
  obtain ⟨hd, hws, hfs⟩ := hI.early (Or.inl hm)
  have hq : s.queueClosed = false := by
    cases hq : s.queueClosed with
    | false => rfl
    | true => exact absurd hm (hI.closed.1 hq).1
  have hz : s.zeroSeen = 0 := by
    have := hI.zero
    rw [hq] at this
    simpa using this
  have hu : unresolved s = 0 := by
    simp [unresolved, feederLoad, hm, hd, hws, hfs, MainPC.load, DedupPC.load]
  rcases sendPending_cases hs with ⟨hc, _⟩ | ⟨hc, hwd, rfl⟩
  · have := hI.pend.1 hc
    rw [hd] at this
    simp at this
  · obtain ⟨w1, w2, w3⟩ := watch_open s 1 hq hz hI.noPanic
    have hnat : unresolved { watch s 1 with main := MainPC.seedRoot } = 1 := by
      simp [unresolved, feederLoad, hd, hws, hfs, MainPC.load, DedupPC.load]
    refine ⟨w1, ?_, ?_, w3, ?_, ?_, ?_, ?_, ?_, ?_, ?_, ?_⟩
    · have hcount : s.queueCount + 1 =
          ((unresolved { watch s 1 with main := MainPC.seedRoot } : Nat) : Int) := by
        rw [hnat, hI.count, hu]; rfl
      simpa using hcount
    · show (watch s 1).queueClosed = true ↔ _
      rw [w2]
      show _ ↔ (MainPC.seedRoot ≠ MainPC.seedPending ∧ (watch s 1).queueCount = 0)
      rw [watch_queueCount]
      simp
    · intro _
      exact ⟨by simpa using hd, by simpa using hws, by simpa using hfs⟩
    · simpa using hI.locs
    · simpa using hI.pend
    · intro hx
      have hx : s.dedup = .closing ∨ s.dedup = .done := by simpa using hx
      rw [hd] at hx
      simp at hx
    · simpa using hI.watcher
    · intro hx
      have hx : WorkerPC.exited ∈ s.workers := by simpa using hx
      rw [hws] at hx
      simp at hx
    · intro i hx
      simp at hx
    · intro e hx
      simp at hx

theorem inv_seedRoot {W : World} {c : Crawler} {s t : State} (hI : Inv c s)
    (h : step W c s .seedRoot = some t) : Inv c t := by
  obtain ⟨hm, hs⟩ := step_seedRoot h
  obtain ⟨hd, hws, hfs⟩ := hI.early (Or.inr hm)
  have hu : unresolved s = 1 := by
    simp [unresolved, feederLoad, hm, hd, hws, hfs, MainPC.load, DedupPC.load]
  obtain ⟨hq, hz⟩ := inv_open hI (by omega)
  rcases sendQueue_cases hs with ⟨hc, _⟩ | ⟨_, _, rfl⟩
  · rw [hq] at hc; simp at hc
  · have hl := dedupReceive_load W s (rootLocation c)
    obtain ⟨o1, o2, o3⟩ := dedupReceive_open W s (rootLocation c)
    have hnat : unresolved { dedupReceive W s (rootLocation c) with main := MainPC.spawning 0 } = 1 := by
      simp [unresolved, feederLoad, hws, hfs, MainPC.load, hl]
    refine ⟨by simpa using hI.noPanic, ?_, ?_, by simpa using hI.zero, ?_, ?_, ?_, ?_, ?_, ?_, ?_, ?_⟩
    · have hcount : s.queueCount =
          ((unresolved { dedupReceive W s (rootLocation c) with main := MainPC.spawning 0 } : Nat)
            : Int) := by
        rw [hnat, hI.count, hu]
      simpa using hcount
    · show (dedupReceive W s (rootLocation c)).queueClosed = true ↔
        (MainPC.spawning 0 ≠ MainPC.seedPending ∧ (dedupReceive W s (rootLocation c)).queueCount = 0)
      rw [dedupReceive_queueClosed, dedupReceive_queueCount, hq, hI.count, hu]
      simp
    · intro hx
      simp at hx
    · show (dedupReceive W s (rootLocation c)).locationsClosed = true ↔ _
      rw [dedupReceive_locationsClosed]
      have := hI.locs
      rw [hd] at this
      simp only [o2, o3, or_false, iff_false] at this ⊢
      simpa using this
    · show (dedupReceive W s (rootLocation c)).pendingClosed = true ↔ _
      rw [dedupReceive_pendingClosed]
      have := hI.pend
      rw [hd] at this
      simp only [o3, iff_false] at this ⊢
      simpa using this
    · intro hx
      rcases hx with hx | hx
      · exact absurd hx o2
      · exact absurd hx o3
    · simpa using hI.watcher
    · intro hx
      have hx : WorkerPC.exited ∈ s.workers := by simpa using hx
      rw [hws] at hx
      simp at hx
    · intro i hx
      have : i = 0 := by
        have hx : MainPC.spawning 0 = MainPC.spawning i := hx
        injection hx with hx
        exact hx.symm
      subst this
      show (dedupReceive W s (rootLocation c)).workers.length = 0
      simp [hws]
    · intro e hx
      have hx : MainPC.spawning 0 = MainPC.returned e := hx
      simp at hx

theorem inv_spawn {W : World} {c : Crawler} {s t : State} (hI : Inv c s)
    (h : step W c s .spawn = some t) : Inv c t := by
  obtain ⟨i, hm, hlt, rfl⟩ := step_spawn h
  refine ⟨hI.noPanic, ?_, ?_, hI.zero, ?_, hI.locs, hI.pend, hI.late, hI.watcher, ?_, ?_, ?_⟩
  · have := hI.count
    simp only [unresolved, feederLoad, hm, MainPC.load, List.map_append, List.sum_append,
      List.map_cons, List.map_nil, List.sum_cons, List.sum_nil, WorkerPC.load] at this ⊢
    rw [this]; simp
  · have := hI.closed
    simp only [hm] at this
    simpa using this
  · intro hx
    simp at hx
  · intro hx
    have hx : WorkerPC.exited ∈ s.workers ++ [WorkerPC.idle] := hx
    simp only [List.mem_append, List.mem_singleton] at hx
    rcases hx with hx | hx
    · exact hI.exited hx
    · simp at hx
  · intro j hx
    have hj : j = i + 1 := by
      have hx : MainPC.spawning (i + 1) = MainPC.spawning j := hx
      injection hx with hx
      exact hx.symm
    subst hj
    show (s.workers ++ [WorkerPC.idle]).length = i + 1
    rw [List.length_append, hI.spawned i hm]; rfl
  · intro e hx
    have hx : MainPC.spawning (i + 1) = MainPC.returned e := hx
    simp at hx

theorem inv_take {W : World} {c : Crawler} {s t : State} {w : Nat} (hI : Inv c s)
    (h : step W c s (.take w) = some t) : Inv c t := by
  obtain ⟨loc, hd, hw, rfl⟩ := step_take h
  have hmem : WorkerPC.idle ∈ s.workers := List.getElem?_mem hw
  have hearly : ¬ (s.main = .seedPending ∨ s.main = .seedRoot) := fun hm => by
    have := (hI.early hm).1
    rw [hd] at this
    simp at this
  have hsum := sum_map_set WorkerPC.load s.workers w .idle (.busy loc) hw
  refine ⟨hI.noPanic, ?_, hI.closed, hI.zero, ?_, ?_, ?_, ?_, hI.watcher, ?_, ?_, ?_⟩
  · have := hI.count
    simp only [unresolved, feederLoad, hd, DedupPC.load, WorkerPC.load] at this hsum ⊢
    rw [this]
    omega
  · intro hm
    exact absurd hm hearly
  · have := hI.locs
    rw [hd] at this
    simpa using this
  · have := hI.pend
    rw [hd] at this
    simpa using this
  · intro hx
    simp at hx
  · intro hx
    have hx : WorkerPC.exited ∈ s.workers.set w (.busy loc) := hx
    rcases List.mem_or_eq_of_mem_set hx with h1 | h1
    · exact hI.exited h1
    · simp at h1
  · intro i hm
    show (s.workers.set w (.busy loc)).length = i
    rw [List.length_set]
    exact hI.spawned i hm
  · intro e hm
    have := (hI.ret e hm).2.1 _ hmem
    simp at this

theorem inv_enqueue {W : World} {c : Crawler} {s t : State} {g : Nat} (hI : Inv c s)
    (h : step W c s (.enqueue g) = some t) : Inv c t := by
  obtain ⟨loc, rest, hf, hs⟩ := step_enqueue h
  have hmem : (loc :: rest) ∈ s.feeders := List.getElem?_mem hf
  have hpos : 0 < unresolved s := by
    have := length_pos_of_mem hmem
    unfold unresolved feederLoad; omega
  obtain ⟨hq, hz⟩ := inv_open hI hpos
  have hearly : ¬ (s.main = .seedPending ∨ s.main = .seedRoot) := fun hm =>
    List.ne_nil_of_mem hmem (hI.early hm).2.2
  have hsum := sum_map_set List.length s.feeders g (loc :: rest) rest hf
  rcases sendQueue_cases hs with ⟨hc, _⟩ | ⟨_, hd, rfl⟩
  · rw [hq] at hc; simp at hc
  · have hl := dedupReceive_load W s loc
    obtain ⟨o1, o2, o3⟩ := dedupReceive_open W s loc
    have hnat : unresolved { dedupReceive W s loc with feeders := s.feeders.set g rest } =
        unresolved s := by
      have h0 : s.dedup.load = 0 := by rw [hd]; rfl
      simp only [unresolved, feederLoad, dedupReceive_main, dedupReceive_workers, hl, h0,
        List.length_cons] at hsum ⊢
      omega
    refine ⟨by simpa using hI.noPanic, ?_, ?_, by simpa using hI.zero, ?_, ?_, ?_, ?_, ?_, ?_, ?_, ?_⟩
    · have hcount : s.queueCount =
          ((unresolved { dedupReceive W s loc with feeders := s.feeders.set g rest } : Nat)
            : Int) := by
        rw [hnat, hI.count]
      simpa using hcount
    · simpa using hI.closed
    · intro hm
      exact absurd (by simpa using hm) hearly
    · show (dedupReceive W s loc).locationsClosed = true ↔ _
      rw [dedupReceive_locationsClosed]
      have := hI.locs
      rw [hd] at this
      simp only [o2, o3, or_false, iff_false] at this ⊢
      simpa using this
    · show (dedupReceive W s loc).pendingClosed = true ↔ _
      rw [dedupReceive_pendingClosed]
      have := hI.pend
      rw [hd] at this
      simp only [o3, iff_false] at this ⊢
      simpa using this
    · intro hx
      rcases hx with hx | hx
      · exact absurd hx o2
      · exact absurd hx o3
    · simpa using hI.watcher
    · simpa using hI.exited
    · simpa using hI.spawned
    · simpa using hI.ret

theorem inv_reject {W : World} {c : Crawler} {s t : State} (hI : Inv c s)
    (h : step W c s .reject = some t) : Inv c t := by
  obtain ⟨hd, hs⟩ := step_reject h
  have hpos : 0 < unresolved s := by
    simp [unresolved, hd, DedupPC.load]
  obtain ⟨hq, hz⟩ := inv_open hI hpos
  have hearly : ¬ (s.main = .seedPending ∨ s.main = .seedRoot) := fun hm => by
    have := (hI.early hm).1
    rw [hd] at this
    simp at this
  rcases sendPending_cases hs with ⟨hc, _⟩ | ⟨hc, hwd, rfl⟩
  · have := hI.pend.1 hc
    rw [hd] at this
    simp at this
  · obtain ⟨w1, w2, w3⟩ := watch_open s (-1) hq hz hI.noPanic
    have hnat : unresolved { watch s (-1) with dedup := DedupPC.receiving } + 1 =
        unresolved s := by
      simp only [unresolved, feederLoad, watch_main, watch_feeders, watch_workers, hd,
        DedupPC.load]
      omega
    refine ⟨w1, ?_, ?_, w3, ?_, ?_, ?_, ?_, ?_, ?_, ?_, ?_⟩
    · have hcount : s.queueCount + -1 =
          ((unresolved { watch s (-1) with dedup := DedupPC.receiving } : Nat) : Int) := by
        rw [hI.count]
        omega
      simpa using hcount
    · show (watch s (-1)).queueClosed = true ↔ _
      rw [w2]
      show _ ↔ ((watch s (-1)).main ≠ MainPC.seedPending ∧ (watch s (-1)).queueCount = 0)
      rw [watch_main, watch_queueCount]
      constructor
      · intro h0; exact ⟨fun hm => hearly (Or.inl hm), h0⟩
      · intro h0; exact h0.2
    · intro hm
      exact absurd (by simpa using hm) hearly
    · have := hI.locs
      rw [hd] at this
      simpa using this
    · have := hI.pend
      rw [hd] at this
      simpa using this
    · intro hx
      simp at hx
    · simpa using hI.watcher
    · simpa using hI.exited
    · simpa using hI.spawned
    · simpa using hI.ret

theorem inv_closeLocations {W : World} {c : Crawler} {s t : State} (hI : Inv c s)
    (h : step W c s .closeLocations = some t) : Inv c t := by
  obtain ⟨hd, hq, rfl⟩ := step_closeLocations h
  have hearly : ¬ (s.main = .seedPending ∨ s.main = .seedRoot) := fun hm => by
    have h0 := (hI.closed.1 hq)
    rcases hm with hm | hm
    · exact h0.1 hm
    · have := hI.count
      rw [h0.2] at this
      simp only [unresolved, hm, MainPC.load] at this
      omega
  refine ⟨hI.noPanic, ?_, hI.closed, hI.zero, ?_, ?_, ?_, ?_, hI.watcher, ?_, hI.spawned, hI.ret⟩
  · have := hI.count
    simp only [unresolved, feederLoad, hd, DedupPC.load] at this ⊢
    exact this
  · intro hm
    exact absurd hm hearly
  · simp
  · have := hI.pend
    rw [hd] at this
    simpa using this
  · intro _; exact hq
  · intro _; rfl

theorem inv_closePending {W : World} {c : Crawler} {s t : State} (hI : Inv c s)
    (h : step W c s .closePending = some t) : Inv c t := by
  obtain ⟨hd, rfl⟩ := step_closePending h
  have hq := hI.late (Or.inl hd)
  have hl := hI.locs.2 (Or.inl hd)
  have hearly : ¬ (s.main = .seedPending ∨ s.main = .seedRoot) := fun hm => by
    have := (hI.early hm).1
    rw [hd] at this
    simp at this
  refine ⟨hI.noPanic, ?_, hI.closed, hI.zero, ?_, ?_, ?_, ?_, ?_, hI.exited, hI.spawned, hI.ret⟩
  · have := hI.count
    simp only [unresolved, feederLoad, hd, DedupPC.load] at this ⊢
    exact this
  · intro hm
    exact absurd hm hearly
  · show s.locationsClosed = true ↔ _
    simp [hl]
  · simp
  · intro _; exact hq
  · intro _; rfl

theorem inv_workerExit {W : World} {c : Crawler} {s t : State} {w : Nat} (hI : Inv c s)
    (h : step W c s (.workerExit w) = some t) : Inv c t := by
  obtain ⟨hw, hl, rfl⟩ := step_workerExit h
  have hmem : WorkerPC.idle ∈ s.workers := List.getElem?_mem hw
  have hsum := sum_map_set WorkerPC.load s.workers w .idle .exited hw
  refine ⟨hI.noPanic, ?_, hI.closed, hI.zero, ?_, hI.locs, hI.pend, hI.late, hI.watcher,
    ?_, ?_, ?_⟩
  · have := hI.count
    simp only [unresolved, feederLoad, WorkerPC.load] at this hsum ⊢
    rw [this]
    omega
  · intro hm
    have := (hI.early hm).2.1
    exact absurd this (List.ne_nil_of_mem hmem)
  · intro _; exact hl
  · intro i hm
    show (s.workers.set w .exited).length = i
    rw [List.length_set]
    exact hI.spawned i hm
  · intro e hm
    have := (hI.ret e hm).2.1 _ hmem
    simp at this

theorem inv_watcherExit {W : World} {c : Crawler} {s t : State} (hI : Inv c s)
    (h : step W c s .watcherExit = some t) : Inv c t := by
  obtain ⟨hc, hwd, rfl⟩ := step_watcherExit h
  exact ⟨hI.noPanic, hI.count, hI.closed, hI.zero, hI.early, hI.locs, hI.pend, hI.late,
    fun _ => hc, hI.exited, hI.spawned, hI.ret⟩

theorem inv_mainReturn {W : World} {c : Crawler} {s t : State} (hI : Inv c s)
    (h : step W c s .mainReturn = some t) : Inv c t := by
  obtain ⟨i, hm, hlt, hall, rfl⟩ := step_mainReturn h
  refine ⟨hI.noPanic, ?_, ?_, hI.zero, ?_, hI.locs, hI.pend, hI.late, hI.watcher, hI.exited,
    ?_, ?_⟩
  · have := hI.count
    simp only [unresolved, feederLoad, hm, MainPC.load] at this ⊢
    exact this
  · have := hI.closed
    simp only [hm] at this
    simpa using this
  · intro hx
    simp at hx
  · intro j hx
    have hx : MainPC.returned none = MainPC.spawning j := hx
    simp at hx
  · intro e hx
    have hx : MainPC.returned none = MainPC.returned e := hx
    refine ⟨by injection hx with hx; exact hx.symm, hall, ?_⟩
    have := hI.spawned i hm
    show c.Parallel ≤ ((s.workers.length : Nat) : Int)
    rw [this]
    omega

theorem inv_step {W : World} {c : Crawler} {s t : State} {a : Action} (hI : Inv c s)
    (h : step W c s a = some t) : Inv c t := by
  cases a with
  | seedPending => exact inv_seedPending hI h
  | seedRoot => exact inv_seedRoot hI h
  | spawn => exact inv_spawn hI h
  | take w => exact inv_take hI h
  | finish w => exact inv_finish hI h
  | enqueue g => exact inv_enqueue hI h
  | reject => exact inv_reject hI h
  | closeLocations => exact inv_closeLocations hI h
  | closePending => exact inv_closePending hI h
  | workerExit w => exact inv_workerExit hI h
  | watcherExit => exact inv_watcherExit hI h
  | mainReturn => exact inv_mainReturn hI h

theorem inv_init (c : Crawler) : Inv c init := by
  constructor <;> simp [init, unresolved, feederLoad, MainPC.load, DedupPC.load]

theorem inv_reachable {W : World} {c : Crawler} {s : State} (h : Reachable W c s) :
    Inv c s := by
  induction h with
  | start => exact inv_init c
  | next a _ hs ih => exact inv_step ih hs

/-! ## No deadlock -/

theorem exists_busy_of_load_pos {ws : List WorkerPC} (h : 0 < (ws.map WorkerPC.load).sum) :
    ∃ l, WorkerPC.busy l ∈ ws := by
  induction ws with
  | nil => simp at h
  | cons a rest ih =>
    cases a with
    | busy l => exact ⟨l, List.mem_cons_self _ _⟩
    | idle =>
      simp only [List.map_cons, List.sum_cons, WorkerPC.load, Nat.zero_add] at h
      obtain ⟨l, hl⟩ := ih h
      exact ⟨l, List.mem_cons_of_mem _ hl⟩
    | exited =>
      simp only [List.map_cons, List.sum_cons, WorkerPC.load, Nat.zero_add] at h
      obtain ⟨l, hl⟩ := ih h
      exact ⟨l, List.mem_cons_of_mem _ hl⟩

theorem exists_cons_of_length_pos {fs : List (List location)}
    (h : 0 < (fs.map List.length).sum) : ∃ l rest, (l :: rest) ∈ fs := by
  induction fs with
  | nil => simp at h
  | cons a more ih =>
    cases a with
    | cons l rest => exact ⟨l, rest, List.mem_cons_self _ _⟩
    | nil =>
      simp only [List.map_cons, List.sum_cons, List.length_nil, Nat.zero_add] at h
      obtain ⟨l, rest, hl⟩ := ih h
      exact ⟨l, rest, List.mem_cons_of_mem _ hl⟩

theorem enabled_finish {W : World} {c : Crawler} {s : State} (hI : Inv c s) {l : location}
    (hb : WorkerPC.busy l ∈ s.workers) : ∃ a, (step W c s a).isSome = true := by
  obtain ⟨w, hw⟩ := List.mem_iff_getElem?.1 hb
  have hpos : 0 < unresolved s := by
    have := load_pos_of_mem hb
    unfold unresolved; omega
  obtain ⟨hq, _⟩ := inv_open hI hpos
  have hpc : s.pendingClosed = false := by
    cases hc : s.pendingClosed with
    | false => rfl
    | true =>
      have := hI.late (Or.inr (hI.pend.1 hc))
      rw [hq] at this
      simp at this
  have hwd : s.watcherDone = false := by
    cases hc : s.watcherDone with
    | false => rfl
    | true =>
      have := hI.watcher hc
      rw [hpc] at this
      simp at this
  exact ⟨.finish w, by simp [step, hI.noPanic, hw, sendPending, hpc, hwd]⟩

theorem progress_late {W : World} {c : Crawler} {s : State} (hI : Inv c s)
    (hws : s.workers ≠ [])
    (hmain : (∃ i, s.main = .spawning i ∧ ¬ ((i : Int) < c.Parallel)) ∨ ∃ e, s.main = .returned e) :
    Final s ∨ ∃ a, (step W c s a).isSome = true := by
  have hp := hI.noPanic
  have hload : s.main.load = 0 := by
    rcases hmain with ⟨i, hm, _⟩ | ⟨e, hm⟩ <;> rw [hm] <;> rfl
  have hnp : s.main ≠ .seedPending := by
    rcases hmain with ⟨i, hm, _⟩ | ⟨e, hm⟩ <;> rw [hm] <;> simp
  obtain ⟨x, hx⟩ := List.exists_mem_of_ne_nil _ hws
  cases hd : s.dedup with
  | forwarding loc =>
    right
    cases x with
    | idle =>
      obtain ⟨w, hw⟩ := List.mem_iff_getElem?.1 hx
      exact ⟨.take w, by simp [step, hp, hd, hw]⟩
    | busy l => exact enabled_finish hI hx
    | exited =>
      have := hI.locs.1 (hI.exited hx)
      rw [hd] at this
      simp at this
  | rejecting =>
    right
    have hpc : s.pendingClosed = false := by
      cases hc : s.pendingClosed with
      | false => rfl
      | true =>
        have := hI.pend.1 hc
        rw [hd] at this
        simp at this
    have hwd : s.watcherDone = false := by
      cases hc : s.watcherDone with
      | false => rfl
      | true =>
        have := hI.watcher hc
        rw [hpc] at this
        simp at this
    exact ⟨.reject, by simp [step, hp, hd, sendPending, hpc, hwd]⟩
  | receiving =>
    right
    cases hq : s.queueClosed with
    | true => exact ⟨.closeLocations, by simp [step, hp, hd, hq]⟩
    | false =>
      have hne : s.queueCount ≠ 0 := fun h0 => by
        have := hI.closed.2 ⟨hnp, h0⟩
        rw [hq] at this
        simp at this
      have hcount := hI.count
      have h0 : s.dedup.load = 0 := by rw [hd]; rfl
      have hsum : 0 < feederLoad s ∨ 0 < (s.workers.map WorkerPC.load).sum := by
        unfold unresolved at hcount
        omega
      rcases hsum with hf | hw
      · obtain ⟨l, rest, hl⟩ := exists_cons_of_length_pos hf
        obtain ⟨g, hg⟩ := List.mem_iff_getElem?.1 hl
        exact ⟨.enqueue g, by simp [step, hp, hg, sendQueue, hq, hd]⟩
      · obtain ⟨l, hl⟩ := exists_busy_of_load_pos hw
        exact enabled_finish hI hl
  | closing =>
    right
    exact ⟨.closePending, by simp [step, hp, hd]⟩
  | done =>
    have hpc := hI.pend.2 hd
    have hlc := hI.locs.2 (Or.inr hd)
    have hq := hI.late (Or.inr hd)
    cases hwd : s.watcherDone with
    | false => exact Or.inr ⟨.watcherExit, by simp [step, hp, hpc, hwd]⟩
    | true =>
      by_cases hall : ∀ w ∈ s.workers, w = WorkerPC.exited
      · rcases hmain with ⟨i, hm, hlt⟩ | ⟨e, hm⟩
        · right
          refine ⟨.mainReturn, ?_⟩
          have hall2 : (s.workers.all fun w => w == WorkerPC.exited) = true := by
            rw [List.all_eq_true]
            intro w hw
            rw [hall w hw]
            decide
          simp [step, hp, hm, hlt, hall2]
        · left
          have he := (hI.ret e hm).1
          subst he
          exact ⟨hm, hq, hlc, hpc, hd, hwd, hall, hp⟩
      · right
        push_neg at hall
        obtain ⟨y, hy, hne⟩ := hall
        cases y with
        | idle =>
          obtain ⟨w, hw⟩ := List.mem_iff_getElem?.1 hy
          exact ⟨.workerExit w, by simp [step, hp, hw, hlc]⟩
        | busy l => exact enabled_finish hI hy
        | exited => exact absurd rfl hne

theorem progress {W : World} {c : Crawler} {s : State} (hN : 1 ≤ c.Parallel) (hI : Inv c s) :
    Final s ∨ ∃ a, (step W c s a).isSome = true := by
  have hp := hI.noPanic
  cases hm : s.main with
  | seedPending =>
    right
    obtain ⟨hd, _, _⟩ := hI.early (Or.inl hm)
    have hpc : s.pendingClosed = false := by
      cases hc : s.pendingClosed with
      | false => rfl
      | true =>
        have := hI.pend.1 hc
        rw [hd] at this
        simp at this
    have hwd : s.watcherDone = false := by
      cases hc : s.watcherDone with
      | false => rfl
      | true =>
        have := hI.watcher hc
        rw [hpc] at this
        simp at this
    exact ⟨.seedPending, by simp [step, hp, hm, sendPending, hpc, hwd]⟩
  | seedRoot =>
    right
    obtain ⟨hd, _, _⟩ := hI.early (Or.inr hm)
    have hpos : 0 < unresolved s := by
      simp [unresolved, hm, MainPC.load]
    obtain ⟨hq, _⟩ := inv_open hI hpos
    exact ⟨.seedRoot, by simp [step, hp, hm, sendQueue, hq, hd]⟩
  | spawning i =>
    by_cases hlt : (i : Int) < c.Parallel
    · right
      exact ⟨.spawn, by simp [step, hp, hm, hlt]⟩
    · have hlen := hI.spawned i hm
      have hws : s.workers ≠ [] := by
        intro h0
        rw [h0] at hlen
        simp only [List.length_nil] at hlen
        omega
      exact progress_late hI hws (Or.inl ⟨i, hm, hlt⟩)
  | returned e =>
    have hlen := (hI.ret e hm).2.2
    have hws : s.workers ≠ [] := by
      intro h0
      rw [h0] at hlen
      simp only [List.length_nil] at hlen
      omega
    exact progress_late hI hws (Or.inr ⟨e, hm⟩)

theorem final_terminal {W : World} {c : Crawler} {s : State} (hI : Inv c s) (hF : Final s)
    (a : Action) : step W c s a = none := by
  obtain ⟨hm, hq, hl, hpc, hd, hwd, hall, hp⟩ := hF
  cases hs : step W c s a with
  | none => rfl
  | some t =>
    exfalso
    cases a with
    | seedPending => have := (step_seedPending hs).1; rw [hm] at this; simp at this
    | seedRoot => have := (step_seedRoot hs).1; rw [hm] at this; simp at this
    | spawn => obtain ⟨i, h1, _⟩ := step_spawn hs; rw [hm] at h1; simp at h1
    | take w => obtain ⟨l, h1, _⟩ := step_take hs; rw [hd] at h1; simp at h1
    | finish w =>
      obtain ⟨l, h1, _⟩ := step_finish hs
      have := hall _ (List.getElem?_mem h1)
      simp at this
    | enqueue g =>
      obtain ⟨l, rest, h1, _⟩ := step_enqueue hs
      have hpos := length_pos_of_mem (List.getElem?_mem h1)
      have h0 := (hI.closed.1 hq).2
      have hcount := hI.count
      rw [h0] at hcount
      unfold unresolved feederLoad at hcount
      omega
    | reject => have := (step_reject hs).1; rw [hd] at this; simp at this
    | closeLocations => have := (step_closeLocations hs).1; rw [hd] at this; simp at this
    | closePending => have := (step_closePending hs).1; rw [hd] at this; simp at this
    | workerExit w =>
      obtain ⟨h1, _⟩ := step_workerExit hs
      have := hall _ (List.getElem?_mem h1)
      simp at this
    | watcherExit => have := (step_watcherExit hs).2.1; rw [hwd] at this; simp at this
    | mainReturn => obtain ⟨i, h1, _⟩ := step_mainReturn hs; rw [hm] at h1; simp at h1

/-! ## Every location comes from the root by `childLocations` -/

theorem holds_crash {P : location → Prop} {s : State} (hH : Holds P s) : Holds P (crash s) :=
  ⟨hH.feeders, hH.dedup, hH.workers, hH.handed⟩

theorem holds_step {W : World} {c : Crawler} {P : location → Prop} {s t : State} {a : Action}
    (hroot : P (rootLocation c))
    (hchild : ∀ p, P p → ∀ l ∈ childLocations W p, P l)
    (hH : Holds P s) (h : step W c s a = some t) : Holds P t := by
  cases a with
  | seedPending =>
    obtain ⟨_, hs⟩ := step_seedPending h
    rcases sendPending_cases hs with ⟨_, rfl⟩ | ⟨_, _, rfl⟩
    · exact holds_crash hH
    · exact ⟨by simpa using hH.feeders, by simpa using hH.dedup, by simpa using hH.workers,
        by simpa using hH.handed⟩
  | seedRoot =>
    obtain ⟨_, hs⟩ := step_seedRoot h
    rcases sendQueue_cases hs with ⟨_, rfl⟩ | ⟨_, _, rfl⟩
    · exact holds_crash hH
    · refine ⟨by simpa using hH.feeders, ?_, by simpa using hH.workers, by simpa using hH.handed⟩
      intro l hl
      have hl : (dedupReceive W s (rootLocation c)).dedup = .forwarding l := hl
      rcases dedupReceive_dedup W s (rootLocation c) with h1 | h1
      · rw [h1.1] at hl; simp at hl
      · rw [h1.1] at hl
        injection hl with hl
        rw [← hl]; exact hroot
  | spawn =>
    obtain ⟨i, _, _, rfl⟩ := step_spawn h
    refine ⟨hH.feeders, hH.dedup, ?_, hH.handed⟩
    intro l hl
    have hl : WorkerPC.busy l ∈ s.workers ++ [WorkerPC.idle] := hl
    simp only [List.mem_append, List.mem_singleton] at hl
    rcases hl with hl | hl
    · exact hH.workers l hl
    · simp at hl
  | take w =>
    obtain ⟨loc, hd, hw, rfl⟩ := step_take h
    have hloc := hH.dedup loc hd
    refine ⟨hH.feeders, ?_, ?_, ?_⟩
    · intro l hl
      simp at hl
    · intro l hl
      have hl : WorkerPC.busy l ∈ s.workers.set w (.busy loc) := hl
      rcases List.mem_or_eq_of_mem_set hl with h1 | h1
      · exact hH.workers l h1
      · injection h1 with h1
        rw [h1]; exact hloc
    · intro l hl
      have hl : l ∈ s.handed ++ [loc] := hl
      simp only [List.mem_append, List.mem_singleton] at hl
      rcases hl with hl | hl
      · exact hH.handed l hl
      · rw [hl]; exact hloc
  | finish w =>
    obtain ⟨loc, hw, hs⟩ := step_finish h
    have hloc := hH.workers loc (List.getElem?_mem hw)
    rcases sendPending_cases hs with ⟨_, rfl⟩ | ⟨_, _, rfl⟩
    · exact holds_crash hH
    · refine ⟨?_, by simpa using hH.dedup, ?_, by simpa using hH.handed⟩
      · intro f hf l hl
        have hf : f ∈ (watch s _).feeders ++ [childLocations W loc] := hf
        simp only [watch_feeders, List.mem_append, List.mem_singleton] at hf
        rcases hf with hf | hf
        · exact hH.feeders f hf l hl
        · subst hf
          exact hchild loc hloc l hl
      · intro l hl
        have hl : WorkerPC.busy l ∈ (watch s _).workers.set w .idle := hl
        rw [watch_workers] at hl
        rcases List.mem_or_eq_of_mem_set hl with h1 | h1
        · exact hH.workers l h1
        · simp at h1
  | enqueue g =>
    obtain ⟨loc, rest, hf, hs⟩ := step_enqueue h
    have hmem : (loc :: rest) ∈ s.feeders := List.getElem?_mem hf
    rcases sendQueue_cases hs with ⟨_, rfl⟩ | ⟨_, _, rfl⟩
    · exact holds_crash hH
    · refine ⟨?_, ?_, by simpa using hH.workers, by simpa using hH.handed⟩
      · intro f hf l hl
        have hf : f ∈ (dedupReceive W s loc).feeders.set g rest := hf
        rw [dedupReceive_feeders] at hf
        rcases List.mem_or_eq_of_mem_set hf with h1 | h1
        · exact hH.feeders f h1 l hl
        · subst h1
          exact hH.feeders _ hmem l (List.mem_cons_of_mem _ hl)
      · intro l hl
        have hl : (dedupReceive W s loc).dedup = .forwarding l := hl
        rcases dedupReceive_dedup W s loc with h1 | h1
        · rw [h1.1] at hl; simp at hl
        · rw [h1.1] at hl
          injection hl with hl
          rw [← hl]
          exact hH.feeders _ hmem loc (List.mem_cons_self _ _)
  | reject =>
    obtain ⟨_, hs⟩ := step_reject h
    rcases sendPending_cases hs with ⟨_, rfl⟩ | ⟨_, _, rfl⟩
    · exact holds_crash hH
    · refine ⟨by simpa using hH.feeders, ?_, by simpa using hH.workers, by simpa using hH.handed⟩
      intro l hl
      simp at hl
  | closeLocations =>
    obtain ⟨_, _, rfl⟩ := step_closeLocations h
    refine ⟨hH.feeders, ?_, hH.workers, hH.handed⟩
    intro l hl
    simp at hl
  | closePending =>
    obtain ⟨_, rfl⟩ := step_closePending h
    refine ⟨hH.feeders, ?_, hH.workers, hH.handed⟩
    intro l hl
    simp at hl
  | workerExit w =>
    obtain ⟨_, _, rfl⟩ := step_workerExit h
    refine ⟨hH.feeders, hH.dedup, ?_, hH.handed⟩
    intro l hl
    have hl : WorkerPC.busy l ∈ s.workers.set w .exited := hl
    rcases List.mem_or_eq_of_mem_set hl with h1 | h1
    · exact hH.workers l h1
    · simp at h1
  | watcherExit =>
    obtain ⟨_, _, rfl⟩ := step_watcherExit h
    exact ⟨hH.feeders, hH.dedup, hH.workers, hH.handed⟩
  | mainReturn =>
    obtain ⟨i, _, _, _, rfl⟩ := step_mainReturn h
    exact ⟨hH.feeders, hH.dedup, hH.workers, hH.handed⟩

theorem holds_reachable {W : World} {c : Crawler} {P : location → Prop} {s : State}
    (hroot : P (rootLocation c))
    (hchild : ∀ p, P p → ∀ l ∈ childLocations W p, P l)
    (h : Reachable W c s) : Holds P s := by
  induction h with
  | start => constructor <;> simp [init]
  | next a _ hs ih => exact holds_step hroot hchild ih hs

/-! ## The measure decreases -/

theorem weight_lt {U : List String} {c : Crawler} {s t : State}
    (h : unvisited U t < unvisited U s ∨ (unvisited U t = unvisited U s ∧
      (inflight t < inflight s ∨ (inflight t = inflight s ∧
        (feederLoad t < feederLoad s ∨ (feederLoad t = feederLoad s ∧
          control c t < control c s)))))) :
    weight U c t < weight U c s := by
  unfold weight
  rw [Prod.Lex.lt_iff]
  rcases h with h | ⟨h1, h⟩
  · exact Or.inl h
  · refine Or.inr ⟨h1, ?_⟩
    show toLex (inflight t, _) < toLex (inflight s, _)
    rw [Prod.Lex.lt_iff]
    rcases h with h | ⟨h2, h⟩
    · exact Or.inl h
    · refine Or.inr ⟨h2, ?_⟩
      show toLex (feederLoad t, _) < toLex (feederLoad s, _)
      rw [Prod.Lex.lt_iff]
      rcases h with h | ⟨h3, h⟩
      · exact Or.inl h
      · exact Or.inr ⟨h3, h⟩

theorem filter_length_lt {α : Type} (p q : α → Bool) (l : List α)
    (hpq : ∀ x, p x = true → q x = true) (x : α) (hx : x ∈ l) (hq : q x = true)
    (hp : p x = false) : (l.filter p).length < (l.filter q).length := by
  induction l with
  | nil => simp at hx
  | cons a rest ih =>
    have hle : (rest.filter p).length ≤ (rest.filter q).length := by
      clear ih hx
      induction rest with
      | nil => simp
      | cons b more ih2 =>
        simp only [List.filter_cons]
        cases hb : p b with
        | true => simp only [hpq b hb, if_true, List.length_cons]; omega
        | false =>
          simp only [Bool.false_eq_true, if_false]
          split
          · simp only [List.length_cons]; omega
          · exact ih2
    rcases List.mem_cons.1 hx with h1 | h1
    · subst h1
      simp only [List.filter_cons, hq, hp, if_true, Bool.false_eq_true, if_false,
        List.length_cons]
      omega
    · have := ih h1
      simp only [List.filter_cons]
      cases ha : p a with
      | true => simp only [hpq a ha, if_true, List.length_cons]; omega
      | false =>
        simp only [Bool.false_eq_true, if_false]
        split
        · simp only [List.length_cons]; omega
        · exact this

theorem unvisited_lt {U : List String} {s t : State} {u : String} (hu : u ∈ U)
    (hn : u ∉ s.visited) (ht : t.visited = u :: s.visited) :
    unvisited U t < unvisited U s := by
  unfold unvisited
  rw [ht]
  apply filter_length_lt _ _ U _ u hu
  · simpa using hn
  · simp
  · intro x hx
    simp only [List.mem_cons, not_or, decide_eq_true_eq] at hx ⊢
    exact hx.2

theorem unvisited_eq {U : List String} {s t : State} (ht : t.visited = s.visited) :
    unvisited U t = unvisited U s := by
  unfold unvisited; rw [ht]

theorem watch_panicRank (s : State) (d : Int) :
    (if (watch s d).panicked then 0 else 1) ≤ (if s.panicked then 0 else 1) := by
  rw [watch_panicked]
  cases s.panicked <;> simp
  split <;> omega

theorem weight_crash {U : List String} {c : Crawler} {s : State} (hp : s.panicked = false) :
    weight U c (crash s) < weight U c s := by
  apply weight_lt
  refine Or.inr ⟨rfl, Or.inr ⟨rfl, Or.inr ⟨rfl, ?_⟩⟩⟩
  simp [control, crash, hp]

theorem weight_step {W : World} {c : Crawler} {U : List String} {s t : State} {a : Action}
    (hroot : W.String c.Domain ∈ U)
    (hH : Holds (fun l => W.String l.URL ∈ U) s)
    (h : step W c s a = some t) : weight U c t < weight U c s := by
  have hp := step_noPanic h
  cases a with
  | seedPending =>
    obtain ⟨hm, hs⟩ := step_seedPending h
    rcases sendPending_cases hs with ⟨_, rfl⟩ | ⟨_, _, rfl⟩
    · exact weight_crash hp
    · apply weight_lt
      refine Or.inr ⟨unvisited_eq (by simp), Or.inr ⟨by simp [inflight], Or.inr ⟨by simp [feederLoad], ?_⟩⟩⟩
      have := watch_panicRank s 1
      simp only [control, watch_dedup, watch_workers, watch_watcherDone, hm, MainPC.rank]
      omega
  | seedRoot =>
    obtain ⟨hm, hs⟩ := step_seedRoot h
    rcases sendQueue_cases hs with ⟨_, rfl⟩ | ⟨_, hd, rfl⟩
    · exact weight_crash hp
    · apply weight_lt
      rcases dedupReceive_dedup W s (rootLocation c) with ⟨h1, _, h3⟩ | ⟨h1, h2, h3⟩
      · refine Or.inr ⟨unvisited_eq h3, Or.inr ⟨?_, Or.inr ⟨by simp [feederLoad], ?_⟩⟩⟩
        · simp [inflight, h1, hd]
        · simp only [control, dedupReceive_workers, dedupReceive_watcherDone,
            dedupReceive_panicked, hm, MainPC.rank, h1, hd, DedupPC.rank]
          omega
      · exact Or.inl (unvisited_lt hroot h2 h3)
  | spawn =>
    obtain ⟨i, hm, hlt, rfl⟩ := step_spawn h
    apply weight_lt
    refine Or.inr ⟨rfl, Or.inr ⟨?_, Or.inr ⟨rfl, ?_⟩⟩⟩
    · simp [inflight, WorkerPC.load]
    · simp only [control, hm, MainPC.rank, List.map_append, List.sum_append, List.map_cons,
        List.map_nil, List.sum_cons, List.sum_nil, WorkerPC.rank]
      omega
  | take w =>
    obtain ⟨loc, hd, hw, rfl⟩ := step_take h
    have h1 := sum_map_set WorkerPC.load s.workers w .idle (.busy loc) hw
    have h2 := sum_map_set WorkerPC.rank s.workers w .idle (.busy loc) hw
    apply weight_lt
    refine Or.inr ⟨rfl, Or.inr ⟨?_, Or.inr ⟨rfl, ?_⟩⟩⟩
    · simp only [inflight, hd, WorkerPC.load] at h1 ⊢
      omega
    · simp only [control, hd, DedupPC.rank, WorkerPC.rank] at h2 ⊢
      omega
  | finish w =>
    obtain ⟨loc, hw, hs⟩ := step_finish h
    have h1 := sum_map_set WorkerPC.load s.workers w (.busy loc) .idle hw
    rcases sendPending_cases hs with ⟨_, rfl⟩ | ⟨_, _, rfl⟩
    · exact weight_crash hp
    · apply weight_lt
      refine Or.inr ⟨unvisited_eq (by simp), Or.inl ?_⟩
      simp only [inflight, watch_dedup, watch_workers, WorkerPC.load] at h1 ⊢
      omega
  | enqueue g =>
    obtain ⟨loc, rest, hf, hs⟩ := step_enqueue h
    have hmem : (loc :: rest) ∈ s.feeders := List.getElem?_mem hf
    have hU : W.String loc.URL ∈ U := hH.feeders _ hmem loc (List.mem_cons_self _ _)
    have h1 := sum_map_set List.length s.feeders g (loc :: rest) rest hf
    rcases sendQueue_cases hs with ⟨_, rfl⟩ | ⟨_, hd, rfl⟩
    · exact weight_crash hp
    · apply weight_lt
      rcases dedupReceive_dedup W s loc with ⟨e1, _, e3⟩ | ⟨e1, e2, e3⟩
      · refine Or.inr ⟨unvisited_eq e3, Or.inr ⟨?_, Or.inl ?_⟩⟩
        · simp [inflight, e1, hd]
        · simp only [feederLoad, dedupReceive_feeders, List.length_cons] at h1 ⊢
          omega
      · exact Or.inl (unvisited_lt hU e2 e3)
  | reject =>
    obtain ⟨hd, hs⟩ := step_reject h
    rcases sendPending_cases hs with ⟨_, rfl⟩ | ⟨_, _, rfl⟩
    · exact weight_crash hp
    · apply weight_lt
      refine Or.inr ⟨unvisited_eq (by simp), Or.inr ⟨by simp [inflight, hd], Or.inr ⟨by simp [feederLoad], ?_⟩⟩⟩
      have := watch_panicRank s (-1)
      simp only [control, watch_main, watch_workers, watch_watcherDone, hd, DedupPC.rank]
      omega
  | closeLocations =>
    obtain ⟨hd, _, rfl⟩ := step_closeLocations h
    apply weight_lt
    refine Or.inr ⟨rfl, Or.inr ⟨by simp [inflight, hd], Or.inr ⟨rfl, ?_⟩⟩⟩
    simp only [control, hd, DedupPC.rank]
    omega
  | closePending =>
    obtain ⟨hd, rfl⟩ := step_closePending h
    apply weight_lt
    refine Or.inr ⟨rfl, Or.inr ⟨by simp [inflight, hd], Or.inr ⟨rfl, ?_⟩⟩⟩
    simp only [control, hd, DedupPC.rank]
    omega
  | workerExit w =>
    obtain ⟨hw, _, rfl⟩ := step_workerExit h
    have h1 := sum_map_set WorkerPC.load s.workers w .idle .exited hw
    have h2 := sum_map_set WorkerPC.rank s.workers w .idle .exited hw
    apply weight_lt
    refine Or.inr ⟨rfl, Or.inr ⟨?_, Or.inr ⟨rfl, ?_⟩⟩⟩
    · simp only [inflight, WorkerPC.load] at h1 ⊢
      omega
    · simp only [control, WorkerPC.rank] at h2 ⊢
      omega
  | watcherExit =>
    obtain ⟨_, hwd, rfl⟩ := step_watcherExit h
    apply weight_lt
    refine Or.inr ⟨rfl, Or.inr ⟨rfl, Or.inr ⟨rfl, ?_⟩⟩⟩
    simp [control, hwd]
  | mainReturn =>
    obtain ⟨i, hm, _, _, rfl⟩ := step_mainReturn h
    apply weight_lt
    refine Or.inr ⟨rfl, Or.inr ⟨rfl, Or.inr ⟨rfl, ?_⟩⟩⟩
    simp only [control, hm, MainPC.rank]
    omega


/-! ## The link filter and the conversion of links -/

theorem hasPrefix_iff (s p : String) : HasPrefix s p = true ↔ ∃ t : String, s = p ++ t := by
  unfold HasPrefix
  rw [List.isPrefixOf_iff_prefix]
  constructor
  · rintro ⟨t, ht⟩
    exact ⟨⟨t⟩, String.ext (by simp [ht])⟩
  · rintro ⟨t, rfl⟩
    exact ⟨t.data, by simp⟩

theorem collectLinks_mem (domain : url.URL) (anchors : List (Option String)) :
    ∀ (links : List String) (href : String), href ∈ collectLinks domain anchors links →
      href ∈ links ∨ (some href ∈ anchors ∧ containsDisallowedPrefix href = false ∧
        isExternal href domain = false) := by
  induction anchors with
  | nil => intro links href h; exact Or.inl (by simpa [collectLinks] using h)
  | cons a rest ih =>
    intro links href h
    cases a with
    | none =>
      rcases ih links href (by simpa [collectLinks] using h) with h1 | ⟨h1, h2⟩
      · exact Or.inl h1
      · exact Or.inr ⟨List.mem_cons_of_mem _ h1, h2⟩
    | some x =>
      simp only [collectLinks] at h
      split at h
      · rename_i hx
        rcases ih _ href h with h1 | ⟨h1, h2⟩
        · rcases List.mem_append.1 h1 with h3 | h3
          · exact Or.inl h3
          · have : href = x := by simpa using h3
            subst this
            simp only [Bool.and_eq_true, Bool.not_eq_true'] at hx
            exact Or.inr ⟨List.mem_cons_self _ _, hx.1, hx.2⟩
        · exact Or.inr ⟨List.mem_cons_of_mem _ h1, h2⟩
      · rcases ih _ href h with h1 | ⟨h1, h2⟩
        · exact Or.inl h1
        · exact Or.inr ⟨List.mem_cons_of_mem _ h1, h2⟩

theorem crawlDomain_links (W : World) (loc : location) (href : String)
    (h : href ∈ (crawlDomain W loc).1) :
    containsDisallowedPrefix href = false ∧ isExternal href loc.URL = false := by
  unfold crawlDomain at h
  split at h
  · simp at h
  · split at h
    · simp at h
    · split at h
      · simp at h
      · split at h
        · simp at h
        · rcases collectLinks_mem _ _ _ _ h with h1 | ⟨_, h2⟩
          · simp at h1
          · exact h2

theorem convertLoop_eq (parse : String → Except String url.URL) (links : List String) :
    ∀ (urls : List url.URL) (invalids : List String),
      convertLoop parse links urls invalids =
        (urls ++ links.filterMap (fun l => (parse l).toOption),
         invalids ++ (links.filter (fun l => !(parse l).toBool)).map
            (fun l => "\x27" ++ l ++ "\x27")) := by
  induction links with
  | nil => intro urls invalids; simp [convertLoop]
  | cons l rest ih =>
    intro urls invalids
    simp only [convertLoop]
    cases hp : parse l with
    | error e =>
      have h1 : (parse l).toOption = none := by rw [hp]; rfl
      have h2 : (parse l).toBool = false := by rw [hp]; rfl
      simp [ih, List.filterMap_cons, List.filter_cons, h1, h2]
    | ok u =>
      have h1 : (parse l).toOption = some u := by rw [hp]; rfl
      have h2 : (parse l).toBool = true := by rw [hp]; rfl
      simp [ih, List.filterMap_cons, List.filter_cons, h1, h2]

/-- C10: `convertToURLs links parse` returns as `urls` the parse results of the
links that parse, in input order; its error is non-nil exactly when some link
fails to parse, and its text is then `[` followed by the failed links, each
between single quotes, in input order and separated by one blank, followed by
`]`; `len(urls)` plus the number of failed links is `len(links)`. -/
theorem convertToURLs_spec (links : List String) (parse : String → Except String url.URL) :
    (convertToURLs links parse).1 = links.filterMap (fun l => (parse l).toOption) ∧
    ((convertToURLs links parse).2 ≠ none ↔ ∃ l ∈ links, (parse l).toBool = false) ∧
    (convertToURLs links parse).2 =
      (if ∃ l ∈ links, (parse l).toBool = false then
        some ("[" ++ " ".intercalate ((links.filter (fun l => !(parse l).toBool)).map
          (fun l => "\x27" ++ l ++ "\x27")) ++ "]")
       else none) ∧
    (convertToURLs links parse).1.length +
      (links.filter (fun l => !(parse l).toBool)).length = links.length := by
  have hlen : ∀ ls : List String,
      (ls.filterMap (fun l => (parse l).toOption)).length +
        (ls.filter (fun l => !(parse l).toBool)).length = ls.length := by
    intro ls
    induction ls with
    | nil => simp
    | cons l rest ih =>
      cases hp : parse l with
      | error e =>
        have h1 : (parse l).toOption = none := by rw [hp]; rfl
        have h2 : (parse l).toBool = false := by rw [hp]; rfl
        simp only [List.filterMap_cons, List.filter_cons, h1, h2, Bool.not_false, if_true,
          List.length_cons]
        omega
      | ok u =>
        have h1 : (parse l).toOption = some u := by rw [hp]; rfl
        have h2 : (parse l).toBool = true := by rw [hp]; rfl
        simp only [List.filterMap_cons, List.filter_cons, h1, h2, Bool.not_true,
          List.length_cons]
        simp only [Bool.false_eq_true, if_false]
        omega
  have hpos : (0 < (links.filter (fun l => !(parse l).toBool)).length) ↔
      ∃ l ∈ links, (parse l).toBool = false := by
    rw [List.length_pos, ne_eq, List.filter_eq_nil_iff]
    simp
  have h1 : (convertToURLs links parse).1 = links.filterMap (fun l => (parse l).toOption) := by
    simp [convertToURLs, convertLoop_eq]
  have h2 : (convertToURLs links parse).2 =
      (if ∃ l ∈ links, (parse l).toBool = false then
        some ("[" ++ " ".intercalate ((links.filter (fun l => !(parse l).toBool)).map
          (fun l => "\x27" ++ l ++ "\x27")) ++ "]")
       else none) := by
    simp only [convertToURLs, convertLoop_eq, List.nil_append, List.length_map, gt_iff_lt,
      fmtStrings]
    by_cases h : ∃ l ∈ links, (parse l).toBool = false
    · rw [if_pos (hpos.2 h), if_pos h]
    · rw [if_neg (fun h1 => h (hpos.1 h1)), if_neg h]
  refine ⟨h1, ?_, h2, ?_⟩
  · rw [h2]
    by_cases h : ∃ l ∈ links, (parse l).toBool = false
    · simp [h]
    · simp [h]
  · rw [h1]; exact hlen links

/-- Example for `convertToURLs_spec`: of the four links of `sampleLinks` the
second and the fourth do not parse; the two others are returned in order and
the error text is `['%zz' ':x']`. -/
theorem convertToURLs_spec_example :
    convertToURLs sampleLinks sampleParse =
      ([{ Scheme := "http", Host := "a.test", Path := "/a" },
        { Scheme := "http", Host := "a.test", Path := "/b" }],
       some "[\x27%zz\x27 \x27:x\x27]") ∧
    (convertToURLs sampleLinks sampleParse).1 =
      sampleLinks.filterMap (fun l => (sampleParse l).toOption) :=
  ⟨by decide, (convertToURLs_spec sampleLinks sampleParse).1⟩

/-! ## The dedup stage over a sequence of arrivals -/

theorem dedupLoop_snoc (key : url.URL → String) (pre : List location) (loc : location) :
    ∀ visited : List String,
      dedupLoop key (pre ++ [loc]) visited =
        if key loc.URL ∈ visited ∨ key loc.URL ∈ pre.map (fun l => key l.URL) then
          ((dedupLoop key pre visited).1, (dedupLoop key pre visited).2 ++ [-1])
        else ((dedupLoop key pre visited).1 ++ [loc], (dedupLoop key pre visited).2) := by
  induction pre with
  | nil =>
    intro visited
    by_cases h : key loc.URL ∈ visited <;> simp [dedupLoop, h]
  | cons p rest ih =>
    intro visited
    by_cases hp : key p.URL ∈ visited
    · have e1 : dedupLoop key (p :: rest ++ [loc]) visited =
          ((dedupLoop key (rest ++ [loc]) visited).1, (-1) :: (dedupLoop key (rest ++ [loc]) visited).2) := by
        simp [dedupLoop, hp]
      have e2 : dedupLoop key (p :: rest) visited =
          ((dedupLoop key rest visited).1, (-1) :: (dedupLoop key rest visited).2) := by
        simp [dedupLoop, hp]
      rw [e1, e2, ih visited]
      by_cases h1 : key loc.URL ∈ visited
      · simp [h1]
      · by_cases h2 : key loc.URL ∈ rest.map (fun l => key l.URL)
        · simp [h2]
        · have h3 : key loc.URL ≠ key p.URL := fun e => h1 (e ▸ hp)
          have h4 : ¬ (key loc.URL ∈ visited ∨
              key loc.URL ∈ rest.map (fun l => key l.URL)) := by tauto
          have h5 : ¬ (key loc.URL ∈ visited ∨
              key loc.URL ∈ (p :: rest).map (fun l => key l.URL)) := by
            rw [List.map_cons, List.mem_cons]; tauto
          rw [if_neg h4, if_neg h5]
    · have e1 : dedupLoop key (p :: rest ++ [loc]) visited =
          (p :: (dedupLoop key (rest ++ [loc]) (key p.URL :: visited)).1,
            (dedupLoop key (rest ++ [loc]) (key p.URL :: visited)).2) := by
        simp [dedupLoop, hp]
      have e2 : dedupLoop key (p :: rest) visited =
          (p :: (dedupLoop key rest (key p.URL :: visited)).1,
            (dedupLoop key rest (key p.URL :: visited)).2) := by
        simp [dedupLoop, hp]
      rw [e1, e2, ih (key p.URL :: visited)]
      by_cases h : key loc.URL ∈ key p.URL :: visited ∨
              key loc.URL ∈ rest.map (fun l => key l.URL)
      · have h5 : key loc.URL ∈ visited ∨
              key loc.URL ∈ (p :: rest).map (fun l => key l.URL) := by
          rw [List.map_cons, List.mem_cons]
          rw [List.mem_cons] at h
          tauto
        rw [if_pos h, if_pos h5]
      · have h5 : ¬ (key loc.URL ∈ visited ∨
              key loc.URL ∈ (p :: rest).map (fun l => key l.URL)) := by
          rw [List.map_cons, List.mem_cons]
          rw [List.mem_cons] at h
          tauto
        rw [if_neg h, if_neg h5]
        rfl

theorem dedupLoop_facts (key : url.URL → String) (arrivals : List location) :
    ∀ visited : List String,
      (dedupLoop key arrivals visited).1.Sublist arrivals ∧
      (∀ l ∈ (dedupLoop key arrivals visited).1, key l.URL ∉ visited) ∧
      ((dedupLoop key arrivals visited).1.map (fun l => key l.URL)).Nodup ∧
      (∀ d ∈ (dedupLoop key arrivals visited).2, d = -1) ∧
      (dedupLoop key arrivals visited).2.length + (dedupLoop key arrivals visited).1.length
        = arrivals.length ∧
      (∀ a ∈ arrivals, key a.URL ∈ visited ∨
        key a.URL ∈ (dedupLoop key arrivals visited).1.map (fun l => key l.URL)) := by
  induction arrivals with
  | nil => intro visited; simp [dedupLoop]
  | cons p rest ih =>
    intro visited
    by_cases hp : key p.URL ∈ visited
    · obtain ⟨h1, h2, h3, h4, h5, h6⟩ := ih visited
      simp only [dedupLoop, hp, if_true]
      refine ⟨h1.cons _, h2, h3, ?_, ?_, ?_⟩
      · intro d hd
        rcases List.mem_cons.1 hd with rfl | hd
        · rfl
        · exact h4 d hd
      · simp only [List.length_cons]; omega
      · intro a ha
        rcases List.mem_cons.1 ha with rfl | ha
        · exact Or.inl hp
        · exact h6 a ha
    · obtain ⟨h1, h2, h3, h4, h5, h6⟩ := ih (key p.URL :: visited)
      simp only [dedupLoop, hp, if_false]
      refine ⟨h1.cons₂ _, ?_, ?_, h4, ?_, ?_⟩
      · intro l hl
        rcases List.mem_cons.1 hl with rfl | hl
        · exact hp
        · exact fun hv => h2 l hl (List.mem_cons_of_mem _ hv)
      · rw [List.map_cons, List.nodup_cons]
        refine ⟨?_, h3⟩
        intro hmem
        obtain ⟨l, hl, he⟩ := List.mem_map.1 hmem
        exact h2 l hl (by rw [he]; exact List.mem_cons_self _ _)
      · simp only [List.length_cons]; omega
      · intro a ha
        rcases List.mem_cons.1 ha with rfl | ha
        · exact Or.inr (by simp)
        · rcases h6 a ha with h7 | h7
          · rcases List.mem_cons.1 h7 with h8 | h8
            · exact Or.inr (by simp [h8])
            · exact Or.inl h8
          · exact Or.inr (by rw [List.map_cons]; exact List.mem_cons_of_mem _ h7)

/-- C3: the dedup stage forwards an arrival exactly when no earlier arrival had
the same URL string, in arrival order, and sends one `-1` on `pending` for every
other arrival: stated arrival by arrival (`pre ++ [loc]`), and for the whole
sequence (the forwarded locations are a subsequence of the arrivals with
pairwise different URL strings that covers every arriving URL string; every
delta is `-1`; deltas and forwarded locations add up to the arrivals). -/
theorem dedupStage_spec (key : url.URL → String) :
    dedupStage key [] = ([], []) ∧
    (∀ (pre : List location) (loc : location),
      dedupStage key (pre ++ [loc]) =
        if key loc.URL ∈ pre.map (fun l => key l.URL) then
          ((dedupStage key pre).1, (dedupStage key pre).2 ++ [-1])
        else ((dedupStage key pre).1 ++ [loc], (dedupStage key pre).2)) ∧
    (∀ arrivals : List location,
      (dedupStage key arrivals).1.Sublist arrivals ∧
      ((dedupStage key arrivals).1.map (fun l => key l.URL)).Nodup ∧
      (∀ a ∈ arrivals,
        key a.URL ∈ (dedupStage key arrivals).1.map (fun l => key l.URL)) ∧
      (∀ d ∈ (dedupStage key arrivals).2, d = -1) ∧
      (dedupStage key arrivals).2.length = arrivals.length - (dedupStage key arrivals).1.length) := by
  refine ⟨rfl, ?_, ?_⟩
  · intro pre loc
    have := dedupLoop_snoc key pre loc []
    simpa [dedupStage] using this
  · intro arrivals
    obtain ⟨h1, _, h3, h4, h5, h6⟩ := dedupLoop_facts key arrivals []
    refine ⟨h1, h3, ?_, h4, ?_⟩
    · intro a ha
      rcases h6 a ha with h | h
      · simp at h
      · exact h
    · unfold dedupStage; omega

/-- Example for `dedupStage_spec`, with the key `plainString`: `/b`, `/b?x=1` and
`/b#top` have three different URL strings and are all forwarded; the second
arrival of `/b` is discarded with one `-1`. -/
theorem dedupStage_spec_example :
    dedupStage plainString sampleArrivals = (sampleArrivals.take 3, [-1]) ∧
    ((dedupStage plainString sampleArrivals).1.map (fun l => plainString l.URL)).Nodup :=
  ⟨by decide, ((dedupStage_spec plainString).2.2 sampleArrivals).2.1⟩

/-! ## Depth of the children -/

theorem wrapInt_of_range (x : Int) (h1 : -2 ^ 63 ≤ x) (h2 : x < 2 ^ 63) : wrapInt x = x := by
  unfold wrapInt
  rw [Int.emod_eq_of_lt (by omega) (by omega)]
  omega

/-- C6 (as the code has it): every child location a worker hands to `queueURLs`
for a parent `p` has `p.URL` as parent and the depth `p.Depth - 1` in Go's `int`
arithmetic, which is `p.Depth - 1` whenever `p.Depth` is not the least `int`;
for `p.Depth = 0` that is `-1`, not `0`. -/
theorem childLocations_depth (W : World) (p child : location)
    (h : child ∈ childLocations W p) :
    child.Parent = some p.URL ∧ child.Depth = wrapInt (p.Depth - 1) ∧
    (-2 ^ 63 < p.Depth → p.Depth < 2 ^ 63 → child.Depth = p.Depth - 1) ∧
    (p.Depth = 0 → child.Depth = -1) := by
  unfold childLocations queueURLs at h
  obtain ⟨u, _, rfl⟩ := List.mem_map.1 h
  refine ⟨rfl, rfl, ?_, ?_⟩
  · intro h1 h2
    exact wrapInt_of_range _ (by omega) (by omega)
  · intro h0
    show wrapInt (p.Depth - 1) = -1
    rw [h0]; decide

/-- Witness of `childLocations_depth`: the children of the root of `cycleWorld`. -/
theorem childLocations_depth_witness :
    ({ URL := { Scheme := "http", Host := "a.test", Path := "/b" }, Parent := some { Scheme := "http", Host := "a.test", Path := "" }, Depth := -1 }
        : location) ∈ childLocations cycleWorld (rootLocation cycleCrawler) ∧
    (-1 : Int) = wrapInt ((rootLocation cycleCrawler).Depth - 1) :=
  ⟨by decide,
   (childLocations_depth cycleWorld (rootLocation cycleCrawler)
      { URL := { Scheme := "http", Host := "a.test", Path := "/b" }, Parent := some { Scheme := "http", Host := "a.test", Path := "" }, Depth := -1 }
      (by decide)).2.1⟩

/-- C6 as stated fails: the root of `cycleCrawler` has `Depth = 0` and its
children have `Depth = -1`, not `0`. -/
theorem childLocations_depth_zero_counterexample :
    (rootLocation cycleCrawler).Depth = 0 ∧
    ∃ child ∈ childLocations cycleWorld (rootLocation cycleCrawler),
      child.Depth = -1 ∧ child.Depth ≠ 0 :=
  ⟨rfl, ⟨{ URL := { Scheme := "http", Host := "a.test", Path := "/b" }, Parent := some { Scheme := "http", Host := "a.test", Path := "" }, Depth := -1 },
    by decide, rfl, by decide⟩⟩

/-! ## External links -/

/-- What `isExternal` computes: the href starts with `http://` or `https://`
and does not start with the text `Scheme://Host` of the domain. -/
theorem isExternal_iff (href : String) (domain : url.URL) :
    isExternal href domain = true ↔
      (HasPrefix href "http://" = true ∨ HasPrefix href "https://" = true) ∧
      HasPrefix href (domain.Scheme ++ "://" ++ domain.Host) = false := by
  unfold isExternal
  cases HasPrefix href "http://" <;> cases HasPrefix href "https://" <;>
    cases HasPrefix href (domain.Scheme ++ "://" ++ domain.Host) <;> simp

/-- C7 fails on the code: for the domain `http://example.com`, the href
`http://example.com.evil.org/x` names the host `example.com.evil.org`, yet
`isExternal` returns `false` for it and `crawlDomain` keeps it as a link. -/
theorem isExternal_misses_longer_host :
    specSchemeHost "http://example.com.evil.org/x" = "http://example.com.evil.org" ∧
    specSchemeHost "http://example.com.evil.org/x" ≠
      "http" ++ "://" ++ "example.com" ∧
    isExternal "http://example.com.evil.org/x"
      { Scheme := "http", Host := "example.com", Path := "" } = false ∧
    (crawlDomain spoofWorld
      { URL := { Scheme := "http", Host := "example.com", Path := "" },
        Parent := none, Depth := 0 }).1 =
      ["http://example.com.evil.org/x"] := by
  refine ⟨by decide, by decide, by decide, by decide⟩

/-! ## Runs -/

theorem reachable_exec {W : World} {c : Crawler} (acts : List Action) :
    ∀ {s t : State}, Reachable W c s → exec W c s acts = some t → Reachable W c t := by
  induction acts with
  | nil =>
    intro s t hs h
    simp only [exec, Option.some.injEq] at h
    exact h ▸ hs
  | cons a rest ih =>
    intro s t hs h
    simp only [exec] at h
    cases h1 : step W c s a with
    | none => rw [h1] at h; simp at h
    | some u =>
      rw [h1] at h
      exact ih (Reachable.next a hs h1) (by simpa using h)

theorem universe_holds {W : World} {c : Crawler} {U : List String} (hG : FiniteGraph W c U)
    {s : State} (h : Reachable W c s) : Holds (fun l => W.String l.URL ∈ U) s := by
  apply holds_reachable (W := W) (c := c) _ _ h
  · exact hG.1
  · intro p hp l hl
    unfold childLocations queueURLs at hl
    obtain ⟨u, hu, rfl⟩ := List.mem_map.1 hl
    exact hG.2 p hp u hu

theorem no_infinite_run {W : World} {c : Crawler} {U : List String}
    (hG : FiniteGraph W c U) :
    ¬ ∃ σ : ℕ → State, σ 0 = init ∧ ∀ n, ∃ a, step W c (σ n) a = some (σ (n + 1)) := by
  rintro ⟨σ, h0, hstep⟩
  have hreach : ∀ n, Reachable W c (σ n) := by
    intro n
    induction n with
    | zero => rw [h0]; exact Reachable.start
    | succ k ih =>
      obtain ⟨a, ha⟩ := hstep k
      exact Reachable.next a ih ha
  have hdec : ∀ n, weight U c (σ (n + 1)) < weight U c (σ n) := by
    intro n
    obtain ⟨a, ha⟩ := hstep n
    exact weight_step hG.1 (universe_holds hG (hreach n)) ha
  have wf : WellFounded (fun x y : ℕ ×ₗ ℕ ×ₗ ℕ ×ₗ ℕ => x < y) := wellFounded_lt
  have key : ∀ x : ℕ ×ₗ ℕ ×ₗ ℕ ×ₗ ℕ, ∀ n, weight U c (σ n) = x → False := by
    intro x
    refine wf.induction (C := fun x => ∀ n, weight U c (σ n) = x → False) x ?_
    intro y ih n hn
    exact ih _ (hn ▸ hdec n) (n + 1) rfl
  exact key _ 0 rfl

theorem closed_step {W : World} {c : Crawler} {s t : State} {a : Action} (hI : Inv c s)
    (hq : s.queueClosed = true) (h : step W c s a = some t) :
    a.sendsPending = false ∧ a.sendsQueue = false ∧ t.zeroSeen = s.zeroSeen ∧
      t.queueCount = s.queueCount ∧ t.queueClosed = true := by
  have hu : unresolved s = 0 := by
    have h0 := (hI.closed.1 hq).2
    have := hI.count
    rw [h0] at this
    omega
  have hnp := (hI.closed.1 hq).1
  cases a with
  | seedPending => exact absurd (step_seedPending h).1 hnp
  | seedRoot =>
    have hm := (step_seedRoot h).1
    simp [unresolved, hm, MainPC.load] at hu
  | spawn =>
    obtain ⟨i, _, _, rfl⟩ := step_spawn h
    exact ⟨rfl, rfl, rfl, rfl, hq⟩
  | take w =>
    obtain ⟨loc, _, _, rfl⟩ := step_take h
    exact ⟨rfl, rfl, rfl, rfl, hq⟩
  | finish w =>
    obtain ⟨loc, hw, _⟩ := step_finish h
    have := load_pos_of_mem (List.getElem?_mem hw)
    unfold unresolved at hu
    omega
  | enqueue g =>
    obtain ⟨loc, rest, hf, _⟩ := step_enqueue h
    have := length_pos_of_mem (List.getElem?_mem hf)
    unfold unresolved feederLoad at hu
    omega
  | reject =>
    have hd := (step_reject h).1
    simp [unresolved, hd, DedupPC.load] at hu
  | closeLocations =>
    obtain ⟨_, _, rfl⟩ := step_closeLocations h
    exact ⟨rfl, rfl, rfl, rfl, hq⟩
  | closePending =>
    obtain ⟨_, rfl⟩ := step_closePending h
    exact ⟨rfl, rfl, rfl, rfl, hq⟩
  | workerExit w =>
    obtain ⟨_, _, rfl⟩ := step_workerExit h
    exact ⟨rfl, rfl, rfl, rfl, hq⟩
  | watcherExit =>
    obtain ⟨_, _, rfl⟩ := step_watcherExit h
    exact ⟨rfl, rfl, rfl, rfl, hq⟩
  | mainReturn =>
    obtain ⟨i, _, _, _, rfl⟩ := step_mainReturn h
    exact ⟨rfl, rfl, rfl, rfl, hq⟩

theorem zeroSeen_iff_closed {c : Crawler} {s : State} (hI : Inv c s) :
    s.zeroSeen ≤ 1 ∧ (s.zeroSeen = 1 ↔ s.queueClosed = true) := by
  have := hI.zero
  cases hq : s.queueClosed <;> rw [hq] at this <;> simp at this <;> simp [this]

theorem cycle_reaches_mid : Reachable cycleWorld cycleCrawler cycleMid :=
  reachable_exec (cycleSchedule.take 9) Reachable.start (by decide)

theorem fetchURLs_parsed {W : World} {loc : location} {u : url.URL}
    (h : u ∈ fetchURLs W loc) :
    ∃ ref ∈ (crawlDomain W loc).1, W.Parse loc.URL ref = .ok u := by
  unfold fetchURLs convertToURLs at h
  simp only [convertLoop_eq, List.nil_append, List.mem_filterMap] at h
  obtain ⟨ref, hmem, hr⟩ := h
  refine ⟨ref, hmem, ?_⟩
  cases hp : W.Parse loc.URL ref with
  | error e => rw [hp] at hr; simp [Except.toOption] at hr
  | ok v =>
    rw [hp] at hr
    simp only [Except.toOption, Option.some.injEq] at hr
    rw [hr]

theorem cycle_finite (c : Crawler) (hc : c.Domain = { Scheme := "http", Host := "a.test", Path := "" }) :
    FiniteGraph cycleWorld c cycleURLs := by
  refine ⟨by rw [hc]; decide, ?_⟩
  intro loc _ u hu
  obtain ⟨ref, _, hr⟩ := fetchURLs_parsed hu
  simp only [cycleWorld] at hr
  split at hr
  · injection hr with hr; rw [← hr]; decide
  · split at hr
    · injection hr with hr; rw [← hr]; decide
    · simp at hr

/-! ## Disallowed prefixes -/

/-- C8: `containsDisallowedPrefix href` is true exactly when `href` begins with
one of `mailto:`, `tel:`, `ftp://`, `file://`, `telnet://`, `gopher://`,
`javascript:`, `monzo://`, `#` or `?`; such an href is never among the links
`crawlDomain` returns, for any page and any location; and every URL a worker
enqueues is the result of resolving a link without such a prefix. -/
theorem containsDisallowedPrefix_spec (href : String) :
    (containsDisallowedPrefix href = true ↔
      ∃ p ∈ ["mailto:", "tel:", "ftp://", "file://", "telnet://", "gopher://",
              "javascript:", "monzo://", "#", "?"], ∃ t : String, href = p ++ t) ∧
    (containsDisallowedPrefix href = true →
      ∀ (W : World) (loc : location), href ∉ (crawlDomain W loc).1) ∧
    (∀ (W : World) (loc : location), ∀ u ∈ fetchURLs W loc,
      ∃ ref ∈ (crawlDomain W loc).1,
        containsDisallowedPrefix ref = false ∧ W.Parse loc.URL ref = .ok u) := by
  refine ⟨?_, ?_, ?_⟩
  · simp only [containsDisallowedPrefix, disallowedPrefixes, List.any_eq_true, hasPrefix_iff]
    constructor
    · rintro ⟨p, hp, t, rfl⟩
      refine ⟨p, ?_, t, rfl⟩
      simp only [List.mem_cons, List.mem_singleton, List.not_mem_nil, or_false] at hp ⊢
      tauto
    · rintro ⟨p, hp, t, rfl⟩
      refine ⟨p, ?_, t, rfl⟩
      simp only [List.mem_cons, List.mem_singleton, List.not_mem_nil, or_false] at hp ⊢
      tauto
  · intro h W loc hmem
    have := (crawlDomain_links W loc href hmem).1
    simp [h] at this
  · intro W loc u hu
    obtain ⟨ref, hmem, hr⟩ := fetchURLs_parsed hu
    exact ⟨ref, hmem, (crawlDomain_links W loc ref hmem).1, hr⟩

/-! ## The pending counter -/

/-- C1: at every reachable state of the Frontier the watcher's `queueCount` is
the number of locations issued and not yet resolved; so it is never negative,
and it is `0` exactly when no unresolved location remains. -/
theorem queueCount_counts_unresolved (W : World) (c : Crawler) (s : State)
    (h : Reachable W c s) :
    s.queueCount = (unresolved s : Int) ∧ 0 ≤ s.queueCount ∧
      (s.queueCount = 0 ↔ unresolved s = 0) := by
  have hc := (inv_reachable h).count
  refine ⟨hc, ?_, ?_⟩
  · rw [hc]; omega
  · rw [hc]; omega

/-- Witness of `queueCount_counts_unresolved`: the state `cycleMid`, where one
page is being fetched and one duplicate is held by the dedup stage. -/
theorem queueCount_counts_unresolved_witness :
    Reachable cycleWorld cycleCrawler cycleMid ∧
    (cycleMid.queueCount = (unresolved cycleMid : Int) ∧ 0 ≤ cycleMid.queueCount ∧
      (cycleMid.queueCount = 0 ↔ unresolved cycleMid = 0)) :=
  ⟨cycle_reaches_mid,
   queueCount_counts_unresolved cycleWorld cycleCrawler cycleMid cycle_reaches_mid⟩

/-- C2: with at least one worker, in every run the watcher finds
`queueCount == 0` at most once and no goroutine panics (no second
`close(queue)`, no send on a closed channel); once it has found it, `queue` is
closed and no later step is a send on `pending` or on `queue`; a run that can go
no further has found it exactly once; and on a finite link graph no run goes on
for ever. -/
theorem zero_observed_once (W : World) (c : Crawler) (hN : 1 ≤ c.Parallel) :
    (∀ s, Reachable W c s →
      s.panicked = false ∧ s.zeroSeen ≤ 1 ∧ (s.zeroSeen = 1 ↔ s.queueClosed = true) ∧
      (s.zeroSeen = 1 → ∀ a t, step W c s a = some t →
        a.sendsPending = false ∧ a.sendsQueue = false ∧ t.zeroSeen = 1 ∧
          t.queueCount = s.queueCount)) ∧
    (∀ s, Reachable W c s → (∀ a, step W c s a = none) → s.zeroSeen = 1) ∧
    (∀ U, FiniteGraph W c U →
      ¬ ∃ σ : ℕ → State, σ 0 = init ∧ ∀ n, ∃ a, step W c (σ n) a = some (σ (n + 1))) := by
  refine ⟨?_, ?_, fun U hG => no_infinite_run hG⟩
  · intro s hs
    have hI := inv_reachable hs
    obtain ⟨h1, h2⟩ := zeroSeen_iff_closed hI
    refine ⟨hI.noPanic, h1, h2, ?_⟩
    intro hz a t ht
    obtain ⟨e1, e2, e3, e4, _⟩ := closed_step hI (h2.1 hz) ht
    exact ⟨e1, e2, by rw [e3, hz], e4⟩
  · intro s hs hstuck
    have hI := inv_reachable hs
    rcases progress (W := W) hN hI with hF | ⟨a, ha⟩
    · exact (zeroSeen_iff_closed hI).2.2 hF.2.1
    · rw [hstuck a] at ha
      simp at ha

/-- Witness of `zero_observed_once`: `cycleCrawler` has two workers. -/
theorem zero_observed_once_witness :
    1 ≤ cycleCrawler.Parallel ∧
    (∀ s, Reachable cycleWorld cycleCrawler s →
      (∀ a, step cycleWorld cycleCrawler s a = none) → s.zeroSeen = 1) :=
  ⟨by decide, (zero_observed_once cycleWorld cycleCrawler (by decide)).2.1⟩

/-! ## Termination -/

/-- C4: on a finite link graph and with at least one worker, no run of
`Crawler.Run` goes on for ever; every reachable state is either the final one
(`Run` has returned, `queue`, `locations` and `pending` are closed, every
goroutine has left its loop) or has a goroutine that can move; and in the final
state nothing can move. -/
theorem run_terminates (W : World) (c : Crawler) (U : List String) (hN : 1 ≤ c.Parallel)
    (hG : FiniteGraph W c U) :
    (¬ ∃ σ : ℕ → State, σ 0 = init ∧ ∀ n, ∃ a, step W c (σ n) a = some (σ (n + 1))) ∧
    (∀ s, Reachable W c s → Final s ∨ ∃ a t, step W c s a = some t) ∧
    (∀ s, Reachable W c s → Final s → ∀ a, step W c s a = none) := by
  refine ⟨no_infinite_run hG, ?_, ?_⟩
  · intro s hs
    rcases progress (W := W) hN (inv_reachable hs) with hF | ⟨a, ha⟩
    · exact Or.inl hF
    · exact Or.inr ⟨a, Option.isSome_iff_exists.1 ha⟩
  · intro s hs hF a
    exact final_terminal (inv_reachable hs) hF a

/-- Witness of `run_terminates`: the cycle `A → B → A` of `cycleWorld`. -/
theorem run_terminates_witness :
    1 ≤ cycleCrawler.Parallel ∧ FiniteGraph cycleWorld cycleCrawler cycleURLs ∧
    (¬ ∃ σ : ℕ → State, σ 0 = init ∧
      ∀ n, ∃ a, step cycleWorld cycleCrawler (σ n) a = some (σ (n + 1))) :=
  ⟨by decide, cycle_finite cycleCrawler rfl,
   (run_terminates cycleWorld cycleCrawler cycleURLs (by decide)
      (cycle_finite cycleCrawler rfl)).1⟩

/-! ## Depth -/

theorem crawlDomain_boundary (W : World) (l : location) (h : l.Depth = 1) :
    (crawlDomain W l).1 = [] ∧
    (∀ resp, W.Get (W.String l.URL) = .ok resp → resp.StatusCode < 400 →
      crawlDomain W l = ([], none)) := by
  unfold crawlDomain
  constructor
  · split
    · rfl
    · split
      · rfl
      · simp [h]
  · intro resp hr hs
    rw [hr]
    have : ¬ resp.StatusCode ≥ 400 := by omega
    simp [this, h]

theorem fetchURLs_boundary (W : World) (l : location) (h : l.Depth = 1) :
    fetchURLs W l = [] := by
  unfold fetchURLs
  rw [(crawlDomain_boundary W l h).1]
  rfl

theorem chain_depth {W : World} {c : Crawler} (hd : 1 ≤ c.Depth) (hmax : c.Depth < 2 ^ 63)
    {n : Nat} {l : location} (h : Chain W c n l) :
    (n : Int) < c.Depth ∧ l.Depth = c.Depth - n := by
  induction h with
  | root => exact ⟨by simpa using hd, by simp [rootLocation]⟩
  | child hp hl ih =>
    rename_i k p l
    obtain ⟨h1, h2⟩ := ih
    have hne : p.Depth ≠ 1 := by
      intro h1
      have := fetchURLs_boundary W p h1
      unfold childLocations queueURLs at hl
      rw [this] at hl
      simp at hl
    unfold childLocations queueURLs at hl
    obtain ⟨u, _, rfl⟩ := List.mem_map.1 hl
    have hw : wrapInt (p.Depth - 1) = p.Depth - 1 :=
      wrapInt_of_range _ (by omega) (by omega)
    refine ⟨by push_cast; omega, ?_⟩
    show wrapInt (p.Depth - 1) = _
    rw [hw]; push_cast; omega

theorem chain_zero {W : World} {c : Crawler} {l : location} (h : Chain W c 0 l) :
    l = rootLocation c := by
  cases h
  rfl

/-- C5: for a configured depth `d >= 1`, every location handed to a worker has a
chain of parents from the root, and every such chain has a length below `d` (so
at most `d`), the location's `Depth` being `d` minus that length; a location
with `Depth == 1` yields no links (and no error when the fetch succeeds with a
status below 400) and so no children; with `d = 1` every location handed to a
worker is the root and its list of URLs is empty. -/
theorem depth_bounds_chain (W : World) (c : Crawler) (hd : 1 ≤ c.Depth)
    (hmax : c.Depth < 2 ^ 63) :
    (∀ s, Reachable W c s → ∀ l ∈ s.handed,
      (∃ n : Nat, Chain W c n l) ∧
      ∀ n : Nat, Chain W c n l → (n : Int) ≤ c.Depth ∧ (n : Int) < c.Depth ∧
        l.Depth = c.Depth - n) ∧
    (∀ l : location, l.Depth = 1 →
      (crawlDomain W l).1 = [] ∧
      (∀ resp, W.Get (W.String l.URL) = .ok resp → resp.StatusCode < 400 →
        crawlDomain W l = ([], none)) ∧
      fetchURLs W l = [] ∧ childLocations W l = []) ∧
    (c.Depth = 1 → ∀ s, Reachable W c s → ∀ l ∈ s.handed,
      l = rootLocation c ∧ fetchURLs W l = []) := by
  have hchain : ∀ s, Reachable W c s → ∀ l ∈ s.handed, ∃ n : Nat, Chain W c n l := by
    intro s hs
    exact (holds_reachable (W := W) (c := c) (P := fun l => ∃ n : Nat, Chain W c n l)
      ⟨0, Chain.root⟩ (fun p ⟨n, hp⟩ l hl => ⟨n + 1, Chain.child hp hl⟩) hs).handed
  refine ⟨?_, ?_, ?_⟩
  · intro s hs l hl
    refine ⟨hchain s hs l hl, ?_⟩
    intro n hn
    obtain ⟨h1, h2⟩ := chain_depth hd hmax hn
    exact ⟨by omega, h1, h2⟩
  · intro l hl
    obtain ⟨h1, h2⟩ := crawlDomain_boundary W l hl
    refine ⟨h1, h2, fetchURLs_boundary W l hl, ?_⟩
    unfold childLocations queueURLs
    rw [fetchURLs_boundary W l hl]
    rfl
  · intro h1 s hs l hl
    obtain ⟨n, hn⟩ := hchain s hs l hl
    have h2 := (chain_depth hd hmax hn).1
    have h0 : n = 0 := by omega
    subst h0
    have hroot := chain_zero hn
    subst hroot
    exact ⟨rfl, fetchURLs_boundary W _ h1⟩

/-- Witness of `depth_bounds_chain`: `shallowCrawler` has depth 2. -/
theorem depth_bounds_chain_witness :
    1 ≤ shallowCrawler.Depth ∧ shallowCrawler.Depth < 2 ^ 63 ∧
    (∀ l : location, l.Depth = 1 →
      (crawlDomain cycleWorld l).1 = [] ∧
      (∀ resp, cycleWorld.Get (cycleWorld.String l.URL) = .ok resp → resp.StatusCode < 400 →
        crawlDomain cycleWorld l = ([], none)) ∧
      fetchURLs cycleWorld l = [] ∧ childLocations cycleWorld l = []) :=
  ⟨by decide, by decide,
   (depth_bounds_chain cycleWorld shallowCrawler (by decide) (by decide)).2.1⟩

/-! ## No worker -/

theorem idle_step {W : World} {c : Crawler} {s t : State} {a : Action} (hP : c.Parallel ≤ 0)
    (hs : s.workers = [] ∧ s.handed = []) (h : step W c s a = some t) :
    t.workers = [] ∧ t.handed = [] := by
  obtain ⟨h1, h2⟩ := hs
  cases a with
  | seedPending =>
    obtain ⟨_, hs⟩ := step_seedPending h
    rcases sendPending_cases hs with ⟨_, rfl⟩ | ⟨_, _, rfl⟩
    · exact ⟨h1, h2⟩
    · exact ⟨by simpa using h1, by simpa using h2⟩
  | seedRoot =>
    obtain ⟨_, hs⟩ := step_seedRoot h
    rcases sendQueue_cases hs with ⟨_, rfl⟩ | ⟨_, _, rfl⟩
    · exact ⟨h1, h2⟩
    · exact ⟨by simpa using h1, by simpa using h2⟩
  | spawn =>
    obtain ⟨i, _, hlt, _⟩ := step_spawn h
    omega
  | take w =>
    obtain ⟨loc, _, hw, _⟩ := step_take h
    rw [h1] at hw; simp at hw
  | finish w =>
    obtain ⟨loc, hw, _⟩ := step_finish h
    rw [h1] at hw; simp at hw
  | enqueue g =>
    obtain ⟨loc, rest, _, hs⟩ := step_enqueue h
    rcases sendQueue_cases hs with ⟨_, rfl⟩ | ⟨_, _, rfl⟩
    · exact ⟨h1, h2⟩
    · exact ⟨by simpa using h1, by simpa using h2⟩
  | reject =>
    obtain ⟨_, hs⟩ := step_reject h
    rcases sendPending_cases hs with ⟨_, rfl⟩ | ⟨_, _, rfl⟩
    · exact ⟨h1, h2⟩
    · exact ⟨by simpa using h1, by simpa using h2⟩
  | closeLocations =>
    obtain ⟨_, _, rfl⟩ := step_closeLocations h
    exact ⟨h1, h2⟩
  | closePending =>
    obtain ⟨_, rfl⟩ := step_closePending h
    exact ⟨h1, h2⟩
  | workerExit w =>
    obtain ⟨hw, _⟩ := step_workerExit h
    rw [h1] at hw; simp at hw
  | watcherExit =>
    obtain ⟨_, _, rfl⟩ := step_watcherExit h
    exact ⟨h1, h2⟩
  | mainReturn =>
    obtain ⟨i, _, _, _, rfl⟩ := step_mainReturn h
    exact ⟨h1, h2⟩

theorem idle_reachable {W : World} {c : Crawler} {s : State} (hP : c.Parallel ≤ 0)
    (h : Reachable W c s) : s.workers = [] ∧ s.handed = [] := by
  induction h with
  | start => exact ⟨rfl, rfl⟩
  | next a _ hs ih => exact idle_step hP ih hs

theorem idle_run (W : World) (c : Crawler) (hP : c.Parallel ≤ 0) :
    ∃ s, exec W c init [.seedPending, .seedRoot, .mainReturn] = some s ∧
      s.main = .returned none := by
  have hlt : ¬ ((0 : Int) < c.Parallel) := by omega
  simp [exec, step, init, sendPending, watch, sendQueue, dedupReceive, hlt]
  exact ⟨_, ⟨hP, rfl⟩, rfl⟩

/-- C9 (as the code has it): with `Parallel <= 0`, `Crawler.Run` starts no
worker and hands no location to a worker, it can return after its two sends,
and whenever it returns it returns `nil`; `crawl` then returns `nil` as well
when the domain has no path (its only error after the flags and the domain
have been read is the one for a domain with a path). -/
theorem nonpositive_parallel_returns_nil (W : World) (c : Crawler) (hP : c.Parallel ≤ 0) :
    (∃ s, exec W c init [.seedPending, .seedRoot, .mainReturn] = some s ∧
      s.main = .returned none) ∧
    (∀ s, Reachable W c s → s.workers = [] ∧ s.handed = [] ∧
      ∀ e, s.main = .returned e →
        e = none ∧
        crawl W (.ok c.Depth) (.ok c.Parallel) (.ok c.Wait) (.ok c.Domain) (fun _ => e) =
          if c.Domain.Path.length ≠ 0 then some "Please only provide the root domain name!"
          else none) := by
  refine ⟨idle_run W c hP, ?_⟩
  intro s hs
  obtain ⟨h1, h2⟩ := idle_reachable hP hs
  refine ⟨h1, h2, ?_⟩
  intro e he
  have hnone := ((inv_reachable hs).ret e he).1
  subst hnone
  refine ⟨rfl, ?_⟩
  simp only [crawl]

/-- Witness of `nonpositive_parallel_returns_nil`: `idleCrawler` has
`Parallel = 0`. -/
theorem nonpositive_parallel_returns_nil_witness :
    idleCrawler.Parallel ≤ 0 ∧
    ∃ s, exec cycleWorld idleCrawler init [.seedPending, .seedRoot, .mainReturn] = some s ∧
      s.main = .returned none :=
  ⟨by decide, (nonpositive_parallel_returns_nil cycleWorld idleCrawler (by decide)).1⟩

/-- C9 as stated fails: with `Parallel = 0`, `Run` returns `nil` without
handing any location to a worker, and `crawl` returns `nil`. -/
theorem nonpositive_parallel_counterexample :
    idleCrawler.Parallel ≤ 0 ∧
    (exec cycleWorld idleCrawler init [.seedPending, .seedRoot, .mainReturn]).map
      (fun s => (s.main, s.workers, s.handed)) = some (.returned none, [], []) ∧
    crawl cycleWorld (.ok idleCrawler.Depth) (.ok idleCrawler.Parallel) (.ok idleCrawler.Wait)
      (.ok idleCrawler.Domain) (fun _ => none) = none := by
  refine ⟨by decide, by decide, by decide⟩

end SpiderMan
